import Mathlib

/-!
Verification development for the flowmass deposit-minting engine.

The Go sources are shallowly embedded: the `State` record of `state.go`
(in-memory copy plus the JSON snapshot written to disk) becomes explicit
state passing over `Mem`/`Snap`, Go maps become association lists, and
fallible disk writes are modelled by a boolean success flag per write.
-/

namespace Flowmass

/-- In-memory part of `State` (`state.go`): `NextMintCounter`,
`ProcessedDeposits` (the `processedSet` cache always mirrors the list and is
not modelled separately), `PendingDeposits`. -/
structure Mem where
  counter : Nat
  processed : List String
  pending : List (String × Nat)
deriving Repr, DecidableEq

/-- The persisted JSON snapshot: `next_mint_counter`, `processed_deposits`,
and `pending_deposits`, the last one `Option` because `Save` and
`ReserveNextMintID` marshal a map without that key. -/
structure Snap where
  counter : Nat
  processed : List String
  pending : Option (List (String × Nat))
deriving Repr, DecidableEq

/-- A store instance: the in-memory state plus the current on-disk snapshot,
plus a ghost log `issued` of every `(depositTx, id)` pair successfully
returned by `ReservePendingMint`. -/
structure St where
  mem : Mem
  disk : Snap
  issued : List (String × Nat)
deriving Repr, DecidableEq

/-- Go map read `s.PendingDeposits[depositTx]`. -/
def lookupP : List (String × Nat) → String → Option Nat
  | [], _ => none
  | p :: rest, tx => if p.1 = tx then some p.2 else lookupP rest tx

/-- Go `delete(s.PendingDeposits, depositTx)`. -/
def removeP (l : List (String × Nat)) (tx : String) : List (String × Nat) :=
  l.filter (fun p => p.1 ≠ tx)

/-- Marshal of `ReservePendingMint`/`ClearPending`: all three fields. -/
def snapFull (m : Mem) : Snap := ⟨m.counter, m.processed, some m.pending⟩

/-- Marshal of `Save`/`ReserveNextMintID`: `pending_deposits` omitted. -/
def snapNoPending (m : Mem) : Snap := ⟨m.counter, m.processed, none⟩

/-- `LoadState` on an existing, parseable file: a nil `pending_deposits`
is replaced by an empty map; `processedSet` is rebuilt from the list. -/
def fromSnap (d : Snap) : Mem := ⟨d.counter, d.processed, d.pending.getD []⟩

/-- `IsProcessed` (`state.go`): membership in the processed set, which the
code keeps equal to the `ProcessedDeposits` list. -/
def isProcessedSt (s : St) (tx : String) : Bool := s.mem.processed.contains tx

/-- `MarkProcessed` (`state.go`): append to the list if not yet present;
performs no disk write. -/
def markProcessed (m : Mem) (tx : String) : Mem :=
  if m.processed.contains tx then m
  else { m with processed := m.processed ++ [tx] }

/-- `MarkProcessed` lifted to a store instance (disk untouched). -/
def markProcessedSt (s : St) (tx : String) : St :=
  { s with mem := markProcessed s.mem tx }

/-- `ReservePendingMint` (`state.go` lines 179-209).  An existing
reservation is returned without any mutation or write.  Otherwise the
counter is allocated and incremented and the pending entry is added, and
only then the full snapshot is written; a failed write (`writeOk = false`)
returns the error with the in-memory mutation already applied, exactly as
the Go code does (no rollback).  The ghost `issued` log records the pair
only when an id is actually returned to the caller. -/
def reservePendingMint (s : St) (tx : String) (writeOk : Bool) :
    Except Unit Nat × St :=
  match lookupP s.mem.pending tx with
  | some id => (.ok id, { s with issued := s.issued ++ [(tx, id)] })
  | none =>
    let id := s.mem.counter
    let mem' : Mem :=
      { counter := id + 1, processed := s.mem.processed,
        pending := s.mem.pending ++ [(tx, id)] }
    if writeOk then
      (.ok id, { mem := mem', disk := snapFull mem',
                 issued := s.issued ++ [(tx, id)] })
    else
      (.error (), { s with mem := mem' })

/-- `ClearPending` (`state.go` lines 211-231): delete the entry, then write
the full snapshot; on write failure memory keeps the deletion. -/
def clearPending (s : St) (tx : String) (writeOk : Bool) :
    Except Unit Unit × St :=
  let mem' : Mem := { s.mem with pending := removeP s.mem.pending tx }
  if writeOk then (.ok (), { s with mem := mem', disk := snapFull mem' })
  else (.error (), { s with mem := mem' })

/-- `Save` (`state.go` lines 267-284): writes only `next_mint_counter` and
`processed_deposits` — the snapshot drops `pending_deposits`. -/
def saveSt (s : St) (writeOk : Bool) : Except Unit Unit × St :=
  if writeOk then (.ok (), { s with disk := snapNoPending s.mem })
  else (.error (), s)

/-- The spec's `ClearReservation` as the engine realizes it
(`engine.go` lines 487-495): `MarkProcessed` then `ClearPending`. -/
def clearReservation (s : St) (tx : String) (writeOk : Bool) :
    Except Unit Unit × St :=
  clearPending (markProcessedSt s tx) tx writeOk

/-- The in-memory state both components reach after a successful
`ClearReservation` of `tx` (counter kept, `tx` marked processed, its
pending entry removed). -/
def clearedMem (m : Mem) (tx : String) : Mem :=
  { counter := (markProcessed m tx).counter,
    processed := (markProcessed m tx).processed,
    pending := removeP (markProcessed m tx).pending tx }

/-- Reload from disk (`LoadState` on the existing file); the in-memory copy
is replaced by the parsed snapshot. -/
def reloadSt (s : St) : St := { s with mem := fromSnap s.disk }

/-- The store operations a run of the engine performs, each with the
success flag of its disk write.  `reserve` is `ReservePendingMint` as
invoked from `mintNFTForDeposit`; `finalize` is the
`MarkProcessed`+`ClearPending` pair; `sync` is `NewEngine`'s on-chain
counter fast-forward followed by `Save`. -/
inductive Op where
  | reserve (tx : String) (ok : Bool)
  | finalize (tx : String) (ok : Bool)
  | save (ok : Bool)
  | reload
  | sync (m : Nat) (ok : Bool)
deriving Repr, DecidableEq

/-- One operation of the store. -/
def step (s : St) : Op → St
  | .reserve tx ok => (reservePendingMint s tx ok).2
  | .finalize tx ok => (clearReservation s tx ok).2
  | .save ok => (saveSt s ok).2
  | .reload => reloadSt s
  | .sync m ok =>
    if s.mem.counter < m + 1 then
      (saveSt { s with mem := { s.mem with counter := m + 1 } } ok).2
    else s

/-- A run of the store over a list of operations. -/
def run (s : St) : List Op → St
  | [] => s
  | op :: rest => run (step s op) rest

/-- `LoadState` on a missing file: counter 1, empty sets, then the initial
`Save` (which writes without `pending_deposits`). -/
def initSt : St :=
  { mem := ⟨1, [], []⟩, disk := snapNoPending ⟨1, [], []⟩, issued := [] }

/-- The operation discipline under which the MintState invariant is
provable: `ReservePendingMint` is only called for deposits that passed the
`IsProcessed` check (`engine.go` lines 136-143 and the fetch filter), and
every disk write succeeds.  The program does not guarantee the second
part: a failed reservation write keeps the unpersisted in-memory
allocation (no rollback), a later idempotent retry returns that sequence
with no durable record, and after a crash-and-reload the same sequence is
issued to a different deposit while the counter regresses — so the
invariant genuinely fails on such runs (see the claim C3 counterexample). -/
def okOpB (s : St) : Op → Bool
  | .reserve tx ok => ok && !(isProcessedSt s tx)
  | .finalize _ ok => ok
  | .save ok => ok
  | .reload => true
  | .sync _ ok => ok

/-- Every operation of the list is well-formed at its point of execution. -/
def wfFromB (s : St) : List Op → Bool
  | [] => true
  | op :: rest => okOpB s op && wfFromB (step s op) rest

/-- Ghost view: the sequence ids successfully returned for a deposit. -/
def issuedFor (s : St) (tx : String) : List (String × Nat) :=
  s.issued.filter (fun p => p.1 == tx)

/-- The MintState invariant over a store instance: the disk counter
mirrors memory, every pending value (in memory and on disk) and every
issued sequence is below the counter, every pending entry was issued,
distinct deposits never share a sequence, and the processed sets agree. -/
structure InvSt (s : St) : Prop where
  diskCounter : s.disk.counter = s.mem.counter
  memPendLt : ∀ p ∈ s.mem.pending, p.2 < s.mem.counter
  diskPendLt : ∀ p ∈ s.disk.pending.getD [], p.2 < s.mem.counter
  issuedLt : ∀ p ∈ s.issued, p.2 < s.mem.counter
  memPendIssued : ∀ p ∈ s.mem.pending, p ∈ s.issued
  diskPendIssued : ∀ p ∈ s.disk.pending.getD [], p ∈ s.issued
  seqInj : ∀ p ∈ s.issued, ∀ q ∈ s.issued, p.2 = q.2 → p.1 = q.1
  procSync : s.disk.processed = s.mem.processed

/-! ## Coin selection (`engine.go` `mintNFTForDeposit` lines 399-451) -/

/-- `UTxO` of `cardano.go`: locator, lovelace value, non-lovelace assets
(the Go map is an association list here; `nil` and empty map coincide). -/
structure UTxO where
  id : String
  lovelace : Nat
  assets : List (String × Nat)
deriving Repr, DecidableEq

/-- The candidate filter: strictly lovelace-only (`u.Assets` nil or empty)
and positive lovelace. -/
def isCandidate (u : UTxO) : Bool := u.assets.isEmpty && decide (0 < u.lovelace)

/-- The comparator of `sort.Slice(candidates, ...)`: descending lovelace. -/
def byLovelaceDesc (a b : UTxO) : Prop := b.lovelace ≤ a.lovelace

instance : DecidableRel byLovelaceDesc := fun _ _ => Nat.decLe _ _

instance : IsTotal UTxO byLovelaceDesc := ⟨fun a b => Nat.le_total b.lovelace a.lovelace⟩

instance : IsTrans UTxO byLovelaceDesc := ⟨fun _ _ _ h h' => Nat.le_trans h' h⟩

/-- The selection loop of `mintNFTForDeposit`: append the unit, add its
value, stop as soon as the running sum reaches `required`. -/
def selectLoop (required : Nat) : List UTxO → List String → Nat → List String × Nat
  | [], sel, sum => (sel, sum)
  | c :: rest, sel, sum =>
    let sel' := sel ++ [c.id]
    let sum' := sum + c.lovelace
    if required ≤ sum' then (sel', sum') else selectLoop required rest sel' sum'

/-- The two failure shapes of the selection code: the early
`no lovelace-only UTxO available` error for an empty candidate set, and the
`insufficient lovelace ... have=%d required=%d` error. -/
inductive SelErr where
  | noLovelaceOnly
  | insufficient (haveAmt required : Nat)
deriving Repr, DecidableEq

/-- Coin selection as performed by `mintNFTForDeposit`: filter to
lovelace-only positive units, bail out if none, sort descending by value,
run the greedy loop, and fail if even the full set missed `required`. -/
def selectInputs (utxos : List UTxO) (required : Nat) :
    Except SelErr (List String × Nat) :=
  let candidates := utxos.filter isCandidate
  if candidates.isEmpty then .error .noLovelaceOnly
  else
    let sorted := candidates.insertionSort byLovelaceDesc
    let r := selectLoop required sorted [] 0
    if r.2 < required then .error (.insufficient r.2 required) else .ok r

/-- Total lovelace of a list of units. -/
def sumLov (l : List UTxO) : Nat := (l.map (fun u => u.lovelace)).sum

/-! ## Deposit fetch (`engine.go` `fetchDepositsBlockfrost` lines 164-246) -/

/-- One entry of a Blockfrost UTxO `amount` array.  The `quantity` string
is carried already parsed as an integer (the code parses it with
`fmt.Sscanf "%d"`). -/
structure BfAmount where
  unit : String
  quantity : Int
deriving Repr, DecidableEq

/-- One Blockfrost UTxO row: `tx_hash` and the `amount` array. -/
structure BfUtxo where
  txHash : String
  amount : List BfAmount
deriving Repr, DecidableEq

/-- The lovelace extraction loop: every `"lovelace"` entry overwrites the
running value, starting from zero. -/
def lovelaceOf (u : BfUtxo) : Int :=
  u.amount.foldl (fun acc a => if a.unit = "lovelace" then a.quantity else acc) 0

/-- `Deposit` of `engine.go`. -/
structure Deposit where
  txHash : String
  senderAddr : String
  amount : Int
deriving Repr, DecidableEq

/-- The sender-resolution secondary query: `some addr` when the follow-up
request succeeded, parsed, and had at least one input (its first input's
address); on any failure the code keeps `"unknown"`. -/
def resolveSender (oracle : String → Option String) (tx : String) : String :=
  (oracle tx).getD "unknown"

/-- `fetchDepositsBlockfrost`: an unparseable response propagates as a
single error; otherwise each UTxO is skipped when already processed,
kept when its lovelace value equals the target, with the sender resolved
per `resolveSender`. -/
def fetchDepositsBlockfrost (processed : List String) (target : Int)
    (oracle : String → Option String) (resp : Except String (List BfUtxo)) :
    Except String (List Deposit) :=
  match resp with
  | .error e => .error e
  | .ok utxos => .ok <| utxos.foldl (fun acc u =>
      if processed.contains u.txHash then acc
      else if lovelaceOf u = target then
        acc ++ [⟨u.txHash, resolveSender oracle u.txHash, lovelaceOf u⟩]
      else acc) []

/-- The spec's description of the fetch, for comparison: "returns exactly
the deposits whose value equals the configured target amount and that are
not already processed", sender resolved or reported unknown. -/
def fetchSpec (processed : List String) (target : Int)
    (oracle : String → Option String) (utxos : List BfUtxo) : List Deposit :=
  (utxos.filter
      (fun u => !(processed.contains u.txHash) && decide (lovelaceOf u = target))).map
    (fun u => ⟨u.txHash, resolveSender oracle u.txHash, lovelaceOf u⟩)

/-! ## Per-tick loop (`engine.go` `pollDeposits` lines 126-156 and
`mintNFTForDeposit` lines 378-500) -/

/-- Environment of one tick: which disk writes succeed and whether the
per-deposit external work (slot query, UTxO query, build, sign, submit)
succeeds, keyed by deposit transaction hash. -/
structure TickEnv where
  reserveOk : String → Bool
  delegateOk : String → Bool
  clearOk : String → Bool
  fallbackSaveOk : String → Bool
  tickSaveOk : String → Bool

/-- `mintNFTForDeposit` on the store state: reserve (aborting on a failed
persist), then the external delegation (aborting on failure, reservation
left in place), then `MarkProcessed` + `ClearPending`, with the fallback
`Save` attempt when `ClearPending`'s write fails.  The boolean reports
whether the function returned nil. -/
def mintNFTForDepositSt (env : TickEnv) (s : St) (tx : String) : St × Bool :=
  let r := reservePendingMint s tx (env.reserveOk tx)
  match r.1 with
  | .error _ => (r.2, false)
  | .ok _ =>
    if env.delegateOk tx then
      let s₂ := markProcessedSt r.2 tx
      let c := clearPending s₂ tx (env.clearOk tx)
      match c.1 with
      | .ok _ => (c.2, true)
      | .error _ => ((saveSt c.2 (env.fallbackSaveOk tx)).2, true)
    else (r.2, false)

/-- The per-deposit body of `pollDeposits`' loop: skip already-processed
deposits; otherwise attempt the mint, and on success `MarkProcessed` again
and `Save`.  The log records each attempted deposit and its outcome. -/
def tickStep (env : TickEnv) (acc : St × List (String × Bool)) (dep : Deposit) :
    St × List (String × Bool) :=
  if isProcessedSt acc.1 dep.txHash then acc
  else
    let r := mintNFTForDepositSt env acc.1 dep.txHash
    if r.2 then
      ((saveSt (markProcessedSt r.1 dep.txHash) (env.tickSaveOk dep.txHash)).2,
        acc.2 ++ [(dep.txHash, true)])
    else (r.1, acc.2 ++ [(dep.txHash, false)])

/-- `pollDeposits`: a failed fetch aborts the tick with no state change;
otherwise every deposit of the list is run through `tickStep` in order. -/
def pollDeposits (env : TickEnv) (fetchRes : Except String (List Deposit))
    (s : St) : St × List (String × Bool) :=
  match fetchRes with
  | .error _ => (s, [])
  | .ok deps => deps.foldl (tickStep env) (s, [])

/-! ## Startup reconciliation (`engine.go` `NewEngine` lines 44-80) -/

/-- The counter fast-forward: when `maxOnChain+1 > NextMintCounter`, set the
counter past the on-chain maximum and `Save` (modelled with the write
succeeding, as the claim concerns the successful path). -/
def newEngineSync (maxOnChain : Nat) (s : St) : St :=
  if s.mem.counter < maxOnChain + 1 then
    (saveSt { s with mem := { s.mem with counter := maxOnChain + 1 } } true).2
  else s

/-- The reconciliation loop over the pending entries present at startup:
each entry whose id is at most the on-chain maximum is `MarkProcessed`ed,
`ClearPending`ed and `Save`d. -/
def reconcileLoop (maxOnChain : Nat) (entries : List (String × Nat)) (s : St) : St :=
  entries.foldl (fun st p =>
    if p.2 ≤ maxOnChain then
      (saveSt (clearReservation st p.1 true).2 true).2
    else st) s

/-- `NewEngine`'s startup reconciliation: fast-forward, then (when any
pending reservations were loaded) walk the pending map. -/
def startupReconcile (maxOnChain : Nat) (s : St) : St :=
  if (newEngineSync maxOnChain s).mem.pending.isEmpty then newEngineSync maxOnChain s
  else reconcileLoop maxOnChain (newEngineSync maxOnChain s).mem.pending
    (newEngineSync maxOnChain s)

/-! ## Asset names (`engine.go` lines 386-388 and `getMaxOnChainFlowmass`
lines 250-316).  Strings are handled as character lists; byte slices as
lists of byte values.  All names involved are ASCII, so Go's
byte-slice/string conversions are `Char.toNat`/`Char.ofNat` maps. -/

/-- Bytes of an ASCII string (`[]byte(s)`). -/
def charsBytes (cs : List Char) : List Nat := cs.map Char.toNat

/-- String of an ASCII byte slice (`string(b)`). -/
def bytesChars (bs : List Nat) : List Char := bs.map Char.ofNat

/-- Lowercase hex digit of a nibble, as `encoding/hex` produces. -/
def hexDigitChar (n : Nat) : Char :=
  if n < 10 then Char.ofNat (48 + n) else Char.ofNat (87 + n)

/-- `hex.EncodeToString` of one byte: high nibble then low nibble. -/
def hexEncodeByte (b : Nat) : List Char :=
  [hexDigitChar (b / 16), hexDigitChar (b % 16)]

/-- `hex.EncodeToString` over a byte slice. -/
def hexEncode (bs : List Nat) : List Char := (bs.map hexEncodeByte).flatten

/-- Value of one hex digit as `hex.DecodeString` accepts it
(`0-9`, `a-f`, `A-F`). -/
def hexDigitVal (c : Char) : Option Nat :=
  if 48 ≤ c.toNat ∧ c.toNat ≤ 57 then some (c.toNat - 48)
  else if 97 ≤ c.toNat ∧ c.toNat ≤ 102 then some (c.toNat - 87)
  else if 65 ≤ c.toNat ∧ c.toNat ≤ 70 then some (c.toNat - 55)
  else none

/-- `hex.DecodeString`: fails on odd length or any non-hex character. -/
def hexDecode : List Char → Option (List Nat)
  | [] => some []
  | [_] => none
  | c₁ :: c₂ :: rest =>
    match hexDigitVal c₁, hexDigitVal c₂, hexDecode rest with
    | some h, some l, some bs => some ((16 * h + l) :: bs)
    | _, _, _ => none

/-- Decimal digits of a number, least significant first. -/
def natDigitsRev : Nat → List Nat
  | 0 => []
  | n + 1 => (n + 1) % 10 :: natDigitsRev ((n + 1) / 10)
decreasing_by exact Nat.div_lt_self (Nat.succ_pos n) (by omega)

/-- Character of one decimal digit. -/
def digitChar (d : Nat) : Char := Char.ofNat (48 + d)

/-- `fmt.Sprintf "%d"` of a non-negative integer. -/
def natDec (n : Nat) : List Char :=
  if n = 0 then [digitChar 0] else ((natDigitsRev n).reverse).map digitChar

/-- The derived display name, `fmt.Sprintf("Flowmass %d", id)`. -/
def displayName (id : Nat) : List Char := "Flowmass ".data ++ natDec id

/-- The hex-encoded on-chain asset name, `hex.EncodeToString([]byte(displayName))`. -/
def hexAssetName (id : Nat) : List Char := hexEncode (charsBytes (displayName id))

/-- Value of one decimal digit character, `none` on a non-digit. -/
def digitVal (c : Char) : Option Nat :=
  if 48 ≤ c.toNat ∧ c.toNat ≤ 57 then some (c.toNat - 48) else none

/-- The digit-consuming tail of `fmt.Sscanf`'s `%d`: accumulate decimal
digits until the first non-digit. -/
def scanDigits : List Char → Nat → Nat
  | [], acc => acc
  | c :: rest, acc =>
    match digitVal c with
    | some d => scanDigits rest (acc * 10 + d)
    | none => acc

/-- `%d` skips leading spaces first. -/
def skipSpaces : List Char → List Char
  | c :: rest => if c = ' ' then skipSpaces rest else c :: rest
  | [] => []

/-- `fmt.Sscanf(s, "%d", &n)` on the rest of the name: at least one digit
must be present. -/
def scanDec (cs : List Char) : Option Nat :=
  match skipSpaces cs with
  | c :: rest =>
    match digitVal c with
    | some d => some (scanDigits rest d)
    | none => none
  | [] => none

/-- Prefix test, `strings.HasPrefix`. -/
def hasPre : List Char → List Char → Bool
  | [], _ => true
  | _ :: _, [] => false
  | a :: as, b :: bs => a == b && hasPre as bs

/-- The reconciliation name parser of `getMaxOnChainFlowmass`: require the
`"Flowmass "` marker, then scan the decimal number. -/
def flowmassNumOfName (name : List Char) : Option Nat :=
  if hasPre "Flowmass ".data name then
    scanDec (name.drop ("Flowmass ".data).length)
  else none

/-- The per-asset extraction of `getMaxOnChainFlowmass`: strip the policy
id when it leads the asset string (else take the whole string), skip empty
names, hex-decode, and parse the decoded name. -/
def flowmassNumOfAsset (policyID : List Char) (asset : List Char) : Option Nat :=
  let nameHex := if hasPre policyID asset then asset.drop policyID.length else asset
  if nameHex.isEmpty then none
  else
    match hexDecode nameHex with
    | some b => flowmassNumOfName (bytesChars b)
    | none => none

/-- The page scan's running maximum over a list of asset strings. -/
def maxOnChainScan (policyID : List Char) (assets : List (List Char)) : Nat :=
  assets.foldl (fun mx a =>
    match flowmassNumOfAsset policyID a with
    | some n => if mx < n then n else mx
    | none => mx) 0

/-! ## Helper lemmas -/

/-- Appending a fresh key to an association list makes it found. -/
theorem lookupP_append_self (l : List (String × Nat)) (tx : String) (v : Nat)
    (h : lookupP l tx = none) : lookupP (l ++ [(tx, v)]) tx = some v := by
  induction l with
  | nil => simp [lookupP]
  | cons p rest ih =>
    by_cases hp : p.1 = tx
    · simp [lookupP, hp] at h
    · simp only [List.cons_append, lookupP, if_neg hp] at h ⊢
      exact ih h

/-! ## Claim C1 -/

/-- Claim C1 counterexample: the claim says every successful mutating
operation (including `MarkProcessed` and `Save`) leaves an on-disk snapshot
that parses back to the in-memory `MintState`, with the file containing the
`pending_deposits` mapping.  In the state reached by one successful
reservation, a successful `Save` writes a file without `pending_deposits`,
so the reload differs from memory; and `MarkProcessed` performs no disk
write at all while mutating memory. -/
theorem C1_counterexample_save_drops_pending :
    (fromSnap ((saveSt (reservePendingMint initSt "a" true).2 true).2).disk ≠
      ((saveSt (reservePendingMint initSt "a" true).2 true).2).mem) ∧
    ((saveSt (reservePendingMint initSt "a" true).2 true).2).disk.pending = none ∧
    (markProcessedSt (reservePendingMint initSt "a" true).2 "b").disk =
      ((reservePendingMint initSt "a" true).2).disk ∧
    (markProcessedSt (reservePendingMint initSt "a" true).2 "b").mem ≠
      ((reservePendingMint initSt "a" true).2).mem := by
  decide

/-- Claim C1 as amended: after a successful fresh `ReservePendingMint` and
after a successful `ClearPending` the on-disk snapshot parses back to
exactly the in-memory state, `pending_deposits` included.  `MarkProcessed`
however performs no disk write at all, and `Save` persists only
`next_mint_counter` and `processed_deposits`, omitting `pending_deposits`,
so reloading after a `Save` yields an empty pending map. -/
theorem C1_persistence_per_operation (s : St) (tx : String) :
    (lookupP s.mem.pending tx = none →
      fromSnap ((reservePendingMint s tx true).2).disk =
        ((reservePendingMint s tx true).2).mem) ∧
    fromSnap ((clearPending s tx true).2).disk = ((clearPending s tx true).2).mem ∧
    (markProcessedSt s tx).disk = s.disk ∧
    ((saveSt s true).2).disk = snapNoPending s.mem ∧
    fromSnap ((saveSt s true).2).disk = { s.mem with pending := [] } := by
  refine ⟨fun h => ?_, ?_, rfl, rfl, rfl⟩
  · simp [reservePendingMint, h, fromSnap, snapFull]
  · simp [clearPending, fromSnap, snapFull]

/-- Claim C1 amended witness. -/
theorem C1_persistence_per_operation_witness :
    lookupP initSt.mem.pending "a" = none ∧
    fromSnap ((reservePendingMint initSt "a" true).2).disk =
      ((reservePendingMint initSt "a" true).2).mem :=
  ⟨by decide, (C1_persistence_per_operation initSt "a").1 (by decide)⟩

/-! ## Claim C4 -/

/-- Claim C4 counterexample: the claim says a failed persistence write
rolls the allocation back, leaving `nextSequence` and the pending mapping
exactly as before the call.  On the fresh store, a `ReservePendingMint`
whose write fails returns the error but leaves the counter incremented and
the pending entry in memory. -/
theorem C4_counterexample_no_rollback :
    (reservePendingMint initSt "a" false).1 = Except.error () ∧
    ((reservePendingMint initSt "a" false).2).mem.counter ≠ initSt.mem.counter ∧
    lookupP ((reservePendingMint initSt "a" false).2).mem.pending "a" = some 1 :=
  ⟨rfl, by decide, by decide⟩

/-- Claim C4 as amended: when the persistence write of a fresh
`ReservePendingMint` fails, the call reports the error (so the caller
aborts the mint attempt, per `mintNFTForDeposit`), no sequence is returned,
and the on-disk snapshot is untouched — but the in-memory allocation is not
rolled back: the counter stays incremented and the pending entry remains. -/
theorem C4_reserve_write_failure (s : St) (tx : String)
    (h : lookupP s.mem.pending tx = none) :
    reservePendingMint s tx false =
      (Except.error (),
        { mem := { counter := s.mem.counter + 1, processed := s.mem.processed,
                   pending := s.mem.pending ++ [(tx, s.mem.counter)] },
          disk := s.disk, issued := s.issued }) := by
  simp [reservePendingMint, h]

/-- Claim C4 amended witness. -/
theorem C4_reserve_write_failure_witness :
    lookupP initSt.mem.pending "a" = none ∧
    reservePendingMint initSt "a" false =
      (Except.error (),
        { mem := { counter := 2, processed := [], pending := [("a", 1)] },
          disk := initSt.disk, issued := [] }) :=
  ⟨by decide, C4_reserve_write_failure initSt "a" (by decide)⟩

/-! ## Claim C5 -/

/-- Claim C5 (confirmed): for a deposit that already has a pending
reservation — here, one created by a first call — a second
`ReservePendingMint` returns the same sequence, leaves the in-memory state
(counter included) unchanged, and performs no disk write. -/
theorem C5_reserve_idempotent (s : St) (tx : String)
    (hfresh : lookupP s.mem.pending tx = none) :
    (reservePendingMint s tx true).1 = Except.ok s.mem.counter ∧
    (reservePendingMint (reservePendingMint s tx true).2 tx true).1 =
      Except.ok s.mem.counter ∧
    ((reservePendingMint (reservePendingMint s tx true).2 tx true).2).mem =
      ((reservePendingMint s tx true).2).mem ∧
    ((reservePendingMint (reservePendingMint s tx true).2 tx true).2).disk =
      ((reservePendingMint s tx true).2).disk ∧
    ((reservePendingMint s tx true).2).mem.counter = s.mem.counter + 1 := by
  have hlook : lookupP (s.mem.pending ++ [(tx, s.mem.counter)]) tx = some s.mem.counter :=
    lookupP_append_self s.mem.pending tx s.mem.counter hfresh
  refine ⟨?_, ?_, ?_, ?_, ?_⟩ <;>
    simp [reservePendingMint, hfresh, hlook]

/-- Claim C5 witness. -/
theorem C5_reserve_idempotent_witness :
    lookupP initSt.mem.pending "a" = none ∧
    (reservePendingMint initSt "a" true).1 = Except.ok initSt.mem.counter :=
  ⟨by decide, (C5_reserve_idempotent initSt "a" (by decide)).1⟩

/-! ## Claim C8 -/

/-- The fetch fold, with its accumulator made explicit. -/
theorem fetch_foldl_eq (processed : List String) (target : Int)
    (oracle : String → Option String) (utxos : List BfUtxo) (acc : List Deposit) :
    utxos.foldl (fun acc u =>
        if processed.contains u.txHash then acc
        else if lovelaceOf u = target then
          acc ++ [⟨u.txHash, resolveSender oracle u.txHash, lovelaceOf u⟩]
        else acc) acc =
      acc ++ fetchSpec processed target oracle utxos := by
  induction utxos generalizing acc with
  | nil => simp [fetchSpec]
  | cons u rest ih =>
    rw [List.foldl_cons, ih]
    by_cases h1 : u.txHash ∈ processed
    · simp [fetchSpec, List.filter_cons, h1]
    · by_cases h2 : lovelaceOf u = target
      · simp [fetchSpec, List.filter_cons, h1, h2]
      · simp [fetchSpec, List.filter_cons, h1, h2]

/-- Claim C8 (confirmed): on a parseable response the fetch returns exactly
the deposits whose lovelace value equals the target and whose transaction
is not already processed, each with its sender resolved — reported as
`"unknown"` when resolution failed, never dropped; an unparseable response
propagates as a single error, with no partial list. -/
theorem C8_fetch_deposits (processed : List String) (target : Int)
    (oracle : String → Option String) :
    (∀ utxos, fetchDepositsBlockfrost processed target oracle (.ok utxos) =
        .ok (fetchSpec processed target oracle utxos)) ∧
    (∀ e, fetchDepositsBlockfrost processed target oracle (.error e) = .error e) ∧
    (∀ u : BfUtxo, oracle u.txHash = none → resolveSender oracle u.txHash = "unknown") := by
  refine ⟨fun utxos => ?_, fun e => rfl, fun u h => ?_⟩
  · simpa [fetchDepositsBlockfrost] using
      fetch_foldl_eq processed target oracle utxos []
  · simp [resolveSender, h]

/-- Claim C8 witness. -/
theorem C8_fetch_deposits_witness :
    fetchDepositsBlockfrost ["d"] 27 (fun _ => none)
        (Except.ok [⟨"t1", [⟨"lovelace", 27⟩]⟩, ⟨"d", [⟨"lovelace", 27⟩]⟩]) =
      Except.ok (fetchSpec ["d"] 27 (fun _ => none)
        [⟨"t1", [⟨"lovelace", 27⟩]⟩, ⟨"d", [⟨"lovelace", 27⟩]⟩]) ∧
    resolveSender (fun _ => none) "t1" = "unknown" :=
  ⟨(C8_fetch_deposits ["d"] 27 (fun _ => none)).1
      [⟨"t1", [⟨"lovelace", 27⟩]⟩, ⟨"d", [⟨"lovelace", 27⟩]⟩],
   (C8_fetch_deposits ["d"] 27 (fun _ => none)).2.2 ⟨"t1", [⟨"lovelace", 27⟩]⟩ rfl⟩

/-! ## Claim C2 -/

/-- Removing a key makes it unfindable. -/
theorem lookupP_removeP (l : List (String × Nat)) (tx : String) :
    lookupP (removeP l tx) tx = none := by
  induction l with
  | nil => rfl
  | cons p rest ih =>
    by_cases hp : p.1 = tx
    · simp [removeP, List.filter_cons, hp]
      simpa [removeP] using ih
    · simp [removeP, lookupP, List.filter_cons, hp]
      simpa [removeP, lookupP, hp] using ih

/-- Removing an absent key changes nothing. -/
theorem removeP_of_lookup_none (l : List (String × Nat)) (tx : String)
    (h : lookupP l tx = none) : removeP l tx = l := by
  induction l with
  | nil => rfl
  | cons p rest ih =>
    by_cases hp : p.1 = tx
    · simp [lookupP, hp] at h
    · simp only [lookupP, if_neg hp] at h
      simp [removeP, List.filter_cons, hp]
      simpa [removeP] using ih h

/-- Removing a key twice is the same as removing it once. -/
theorem removeP_idem (l : List (String × Nat)) (tx : String) :
    removeP (removeP l tx) tx = removeP l tx := by
  induction l with
  | nil => rfl
  | cons p rest ih =>
    by_cases hp : p.1 = tx
    · simp only [removeP, List.filter_cons, hp]
      simp only [removeP] at ih
      simp [ih]
    · simp only [removeP, List.filter_cons, hp]
      simp only [removeP] at ih
      simp [ih, hp]

/-- `MarkProcessed` keeps every processed entry. -/
theorem mem_markProcessed (m : Mem) (tx tx' : String) (h : tx ∈ m.processed) :
    tx ∈ (markProcessed m tx').processed := by
  unfold markProcessed
  split
  · exact h
  · simp [h]

/-- `MarkProcessed` records its argument. -/
theorem self_mem_markProcessed (m : Mem) (tx : String) :
    tx ∈ (markProcessed m tx).processed := by
  unfold markProcessed
  split
  · next h => simpa using h
  · simp

/-- `MarkProcessed` of an already processed id is the identity. -/
theorem markProcessed_of_mem (m : Mem) (tx : String) (h : tx ∈ m.processed) :
    markProcessed m tx = m := by
  unfold markProcessed
  simp [h]

/-- `MarkProcessed` leaves the counter and pending map unchanged. -/
theorem markProcessed_counter_pending (m : Mem) (tx : String) :
    (markProcessed m tx).counter = m.counter ∧
    (markProcessed m tx).pending = m.pending := by
  unfold markProcessed
  split <;> exact ⟨rfl, rfl⟩

/-- The result of a successful `ClearReservation`, in closed form. -/
theorem clearReservation_eq (s : St) (tx : String) :
    (clearReservation s tx true).2 =
      ⟨clearedMem s.mem tx, snapFull (clearedMem s.mem tx), s.issued⟩ := rfl

/-- Clearing the same id twice reaches the same in-memory state. -/
theorem clearedMem_idem (m : Mem) (tx : String) :
    clearedMem (clearedMem m tx) tx = clearedMem m tx := by
  have hmem : tx ∈ (clearedMem m tx).processed := self_mem_markProcessed m tx
  have h := markProcessed_of_mem (clearedMem m tx) tx hmem
  show ({ counter := (markProcessed (clearedMem m tx) tx).counter,
          processed := (markProcessed (clearedMem m tx) tx).processed,
          pending := removeP (markProcessed (clearedMem m tx) tx).pending tx } : Mem) =
      clearedMem m tx
  rw [h]
  show ({ counter := (clearedMem m tx).counter,
          processed := (clearedMem m tx).processed,
          pending := removeP (removeP (markProcessed m tx).pending tx) tx } : Mem) =
      clearedMem m tx
  rw [removeP_idem]
  rfl

/-- Once an id is processed both in memory and on disk, every store
operation — disk writes succeeding or failing — keeps it processed in
memory and on disk. -/
theorem processed_mono_step (s : St) (tx : String) (op : Op)
    (h1 : tx ∈ s.mem.processed) (h2 : tx ∈ s.disk.processed) :
    tx ∈ (step s op).mem.processed ∧ tx ∈ (step s op).disk.processed := by
  cases op with
  | reserve tx' ok =>
    simp only [step, reservePendingMint]
    cases hl : lookupP s.mem.pending tx' with
    | some id => exact ⟨h1, h2⟩
    | none => cases ok <;> simp [snapFull, h1, h2]
  | finalize tx' ok =>
    have hm := mem_markProcessed s.mem tx tx' h1
    cases ok <;>
      simp [step, clearReservation, clearPending, markProcessedSt, snapFull, hm, h2]
  | save ok =>
    cases ok <;> simp [step, saveSt, snapNoPending, h1, h2]
  | reload =>
    exact ⟨h2, h2⟩
  | sync m ok =>
    by_cases hc : s.mem.counter < m + 1
    · cases ok <;> simp [step, saveSt, snapNoPending, hc, h1, h2]
    · simp [step, hc, h1, h2]

/-- Processed ids survive any run of further operations. -/
theorem processed_mono_run (s : St) (tx : String) (ops : List Op)
    (h1 : tx ∈ s.mem.processed) (h2 : tx ∈ s.disk.processed) :
    tx ∈ (run s ops).mem.processed ∧ tx ∈ (run s ops).disk.processed := by
  induction ops generalizing s with
  | nil => exact ⟨h1, h2⟩
  | cons op rest ih =>
    have h := processed_mono_step s tx op h1 h2
    exact ih (step s op) h.1 h.2

/-- Claim C2 counterexample: the claim says clearing a non-pending id is a
no-op.  `ClearReservation` as the engine performs it (`MarkProcessed` then
`ClearPending`, `engine.go` lines 487-495) on the fresh store and the
non-pending id `"x"` changes the in-memory state: `"x"` becomes
processed. -/
theorem C2_counterexample_clear_nonpending_not_noop :
    lookupP initSt.mem.pending "x" = none ∧
    ((clearReservation initSt "x" true).2).mem ≠ initSt.mem := by
  decide

/-- Claim C2 as amended: a successful `ClearReservation`
(`MarkProcessed` + `ClearPending`) removes the id from pending, makes
`IsProcessed` true, and persists both facts; the id stays processed for
that instance and across any further operations and reloads; the call is
idempotent and always persists — but on a non-pending id it is a no-op
only when the id was already processed, otherwise it (still) marks the id
processed. -/
theorem C2_clear_reservation (s : St) (tx : String) :
    lookupP ((clearReservation s tx true).2).mem.pending tx = none ∧
    isProcessedSt (clearReservation s tx true).2 tx = true ∧
    tx ∈ ((clearReservation s tx true).2).disk.processed ∧
    ((clearReservation s tx true).2).disk = snapFull ((clearReservation s tx true).2).mem ∧
    (clearReservation ((clearReservation s tx true).2) tx true).2 =
      (clearReservation s tx true).2 ∧
    (∀ ops : List Op,
      tx ∈ (run ((clearReservation s tx true).2) ops).mem.processed) ∧
    (isProcessedSt s tx = true → lookupP s.mem.pending tx = none →
      ((clearReservation s tx true).2).mem = s.mem) := by
  have hself := self_mem_markProcessed s.mem tx
  refine ⟨?_, ?_, ?_, rfl, ?_, ?_, ?_⟩
  · simp [clearReservation, clearPending, markProcessedSt, lookupP_removeP]
  · simp [clearReservation, clearPending, markProcessedSt, isProcessedSt, snapFull, hself]
  · simp [clearReservation, clearPending, markProcessedSt, snapFull, hself]
  · rw [clearReservation_eq s tx, clearReservation_eq, clearedMem_idem]
  · intro ops
    exact (processed_mono_run _ tx ops
      (by simpa [clearReservation, clearPending, markProcessedSt] using hself)
      (by simpa [clearReservation, clearPending, markProcessedSt, snapFull] using hself)).1
  · intro hproc hpend
    have hmem : tx ∈ s.mem.processed := by simpa [isProcessedSt] using hproc
    rw [clearReservation_eq]
    show clearedMem s.mem tx = s.mem
    unfold clearedMem
    rw [markProcessed_of_mem s.mem tx hmem,
      removeP_of_lookup_none s.mem.pending tx hpend]

/-! ## Claim C9 -/

/-- A found key stays found after appending entries. -/
theorem lookupP_append_left (l l' : List (String × Nat)) (tx : String) (v : Nat)
    (h : lookupP l tx = some v) : lookupP (l ++ l') tx = some v := by
  induction l with
  | nil => simp [lookupP] at h
  | cons p rest ih =>
    by_cases hp : p.1 = tx
    · simp only [lookupP, if_pos hp] at h
      simp [lookupP, hp, h]
    · simp only [lookupP, if_neg hp] at h
      simpa [lookupP, hp] using ih h

/-- Removal drops a head entry with the removed key. -/
theorem removeP_cons_eq (p : String × Nat) (rest : List (String × Nat)) (tx' : String)
    (hp : p.1 = tx') : removeP (p :: rest) tx' = removeP rest tx' := by
  simp [removeP, List.filter_cons, hp]

/-- Removal keeps a head entry with a different key. -/
theorem removeP_cons_ne (p : String × Nat) (rest : List (String × Nat)) (tx' : String)
    (hp : ¬ p.1 = tx') : removeP (p :: rest) tx' = p :: removeP rest tx' := by
  simp [removeP, List.filter_cons, hp]

/-- Removing one key leaves lookups of other keys unchanged. -/
theorem lookupP_removeP_ne (l : List (String × Nat)) (tx tx' : String) (hne : tx' ≠ tx) :
    lookupP (removeP l tx') tx = lookupP l tx := by
  induction l with
  | nil => rfl
  | cons p rest ih =>
    by_cases hp : p.1 = tx'
    · rw [removeP_cons_eq p rest tx' hp, ih]
      have hpx : ¬ p.1 = tx := by rw [hp]; exact hne
      simp [lookupP, hpx]
    · rw [removeP_cons_ne p rest tx' hp]
      by_cases hptx : p.1 = tx
      · simp [lookupP, hptx]
      · simp [lookupP, hptx, ih]

/-- A failed `mintNFTForDeposit` always leaves its own deposit with a
pending reservation in memory (fresh or pre-existing). -/
theorem mint_fail_self_pending (env : TickEnv) (s : St) (tx : String)
    (hfail : (mintNFTForDepositSt env s tx).2 = false) :
    ∃ id, lookupP (mintNFTForDepositSt env s tx).1.mem.pending tx = some id := by
  unfold mintNFTForDepositSt
  unfold mintNFTForDepositSt at hfail
  cases hl : lookupP s.mem.pending tx with
  | some id =>
    simp only [reservePendingMint, hl] at hfail ⊢
    by_cases hd : env.delegateOk tx
    · simp [hd] at hfail
      split at hfail <;> simp_all
    · simp [hd, hl]
  | none =>
    simp only [reservePendingMint, hl] at hfail ⊢
    by_cases hw : env.reserveOk tx
    · simp only [hw, if_true] at hfail ⊢
      by_cases hd : env.delegateOk tx
      · simp [hd] at hfail
        split at hfail <;> simp_all
      · simp only [hd, if_false] at hfail ⊢
        exact ⟨s.mem.counter, lookupP_append_self s.mem.pending tx s.mem.counter hl⟩
    · simp only [hw, if_false] at hfail ⊢
      exact ⟨s.mem.counter, lookupP_append_self s.mem.pending tx s.mem.counter hl⟩


/-- `Save` never touches the in-memory state. -/
theorem saveSt_mem (s : St) (b : Bool) : ((saveSt s b).2).mem = s.mem := by
  unfold saveSt
  split <;> rfl

/-- `mintNFTForDeposit` for one deposit never disturbs another deposit\'s
pending reservation, whatever its outcome. -/
theorem mint_pending_ne (env : TickEnv) (s : St) (d tx : String) (hne : d ≠ tx)
    (id : Nat) (h : lookupP s.mem.pending tx = some id) :
    lookupP (mintNFTForDepositSt env s d).1.mem.pending tx = some id := by
  have key : ∀ m : Mem, lookupP m.pending tx = some id →
      lookupP (removeP (markProcessed m d).pending d) tx = some id := by
    intro m hm
    rw [(markProcessed_counter_pending m d).2, lookupP_removeP_ne m.pending tx d hne]
    exact hm
  unfold mintNFTForDepositSt
  cases hl : lookupP s.mem.pending d with
  | some i =>
    simp only [reservePendingMint, hl]
    by_cases hd : env.delegateOk d
    · by_cases hc : env.clearOk d
      · simp [hd, hc, clearPending, markProcessedSt, saveSt, key s.mem h]
      · by_cases hfb : env.fallbackSaveOk d
        · simp [hd, hc, hfb, clearPending, markProcessedSt, saveSt, key s.mem h]
        · simp [hd, hc, hfb, clearPending, markProcessedSt, saveSt, key s.mem h]
    · simpa [hd] using h
  | none =>
    simp only [reservePendingMint, hl]
    have happ : lookupP (s.mem.pending ++ [(d, s.mem.counter)]) tx = some id :=
      lookupP_append_left _ _ tx id h
    have key' := key ⟨s.mem.counter + 1, s.mem.processed,
      s.mem.pending ++ [(d, s.mem.counter)]⟩ happ
    by_cases hw : env.reserveOk d
    · by_cases hd : env.delegateOk d
      · by_cases hc : env.clearOk d
        · simp [hw, hd, hc, clearPending, markProcessedSt, saveSt, key']
        · by_cases hfb : env.fallbackSaveOk d
          · simp [hw, hd, hc, hfb, clearPending, markProcessedSt, saveSt, key']
          · simp [hw, hd, hc, hfb, clearPending, markProcessedSt, saveSt, key']
      · simpa [hw, hd] using happ
    · simpa [hw] using happ

/-- The per-tick log only grows as the deposit list is walked. -/
theorem log_mono (env : TickEnv) (deps : List Deposit)
    (acc : St × List (String × Bool)) (p : String × Bool) (h : p ∈ acc.2) :
    p ∈ (List.foldl (tickStep env) acc deps).2 := by
  induction deps generalizing acc with
  | nil => exact h
  | cons d rest ih =>
    rw [List.foldl_cons]
    apply ih
    by_cases hpd : isProcessedSt acc.1 d.txHash
    · simpa [tickStep, hpd] using h
    · simp only [tickStep, hpd, Bool.false_eq_true, if_false]
      split <;> simp [h]

/-- Tick invariant: a deposit logged as failed is either logged as
succeeded later in the same tick, or still holds a pending reservation. -/
theorem tick_inv (env : TickEnv) (deps : List Deposit)
    (acc : St × List (String × Bool)) (tx : String)
    (h : (tx, false) ∈ acc.2 →
      (tx, true) ∈ acc.2 ∨ ∃ id, lookupP acc.1.mem.pending tx = some id)
    (hf : (tx, false) ∈ (List.foldl (tickStep env) acc deps).2) :
    (tx, true) ∈ (List.foldl (tickStep env) acc deps).2 ∨
    ∃ id, lookupP (List.foldl (tickStep env) acc deps).1.mem.pending tx = some id := by
  induction deps generalizing acc with
  | nil => exact h hf
  | cons d rest ih =>
    rw [List.foldl_cons] at hf ⊢
    refine ih (tickStep env acc d) ?_ hf
    intro hmem
    by_cases hpd : isProcessedSt acc.1 d.txHash
    · simp only [tickStep, hpd, if_true] at hmem ⊢
      exact h hmem
    · simp only [tickStep, hpd, Bool.false_eq_true, if_false] at hmem ⊢
      cases hr : (mintNFTForDepositSt env acc.1 d.txHash).2
      · simp only [hr, Bool.false_eq_true, if_false] at hmem ⊢
        rcases List.mem_append.mp hmem with hin | hlast
        · rcases h hin with htrue | ⟨id, hid⟩
          · exact Or.inl (List.mem_append_left _ htrue)
          · right
            by_cases hdtx : d.txHash = tx
            · rw [← hdtx]
              exact mint_fail_self_pending env acc.1 d.txHash hr
            · exact ⟨id, mint_pending_ne env acc.1 d.txHash tx hdtx id hid⟩
        · right
          have htx : tx = d.txHash := by simpa using hlast
          rw [htx]
          exact mint_fail_self_pending env acc.1 d.txHash hr
      · simp only [hr, if_true] at hmem ⊢
        rcases List.mem_append.mp hmem with hin | hlast
        · rcases h hin with htrue | ⟨id, hid⟩
          · exact Or.inl (List.mem_append_left _ htrue)
          · by_cases hdtx : d.txHash = tx
            · left
              apply List.mem_append_right
              simp [hdtx]
            · right
              refine ⟨id, ?_⟩
              rw [saveSt_mem]
              show lookupP (markProcessed _ d.txHash).pending tx = some id
              rw [(markProcessed_counter_pending _ d.txHash).2]
              exact mint_pending_ne env acc.1 d.txHash tx hdtx id hid
        · simp at hlast


/-- Claim C9 (confirmed): a fetch failure aborts the tick with no state
change at all; a failure while processing one deposit never aborts the
tick - every not-yet-processed deposit of the list is still attempted and
logged - and a deposit whose attempt failed (with no later success in the
same tick) still holds its in-memory pending reservation at the end of the
tick. -/
theorem C9_tick_error_propagation (env : TickEnv) (s : St) :
    (∀ e, pollDeposits env (Except.error e) s = (s, [])) ∧
    (∀ (deps₁ : List Deposit) (d : Deposit) (deps₂ : List Deposit),
      isProcessedSt (List.foldl (tickStep env) (s, ([] : List (String × Bool))) deps₁).1
          d.txHash = false →
      ∃ b, (d.txHash, b) ∈ (pollDeposits env (.ok (deps₁ ++ d :: deps₂)) s).2) ∧
    (∀ deps tx, (tx, false) ∈ (pollDeposits env (.ok deps) s).2 →
      (tx, true) ∉ (pollDeposits env (.ok deps) s).2 →
      ∃ id, lookupP (pollDeposits env (.ok deps) s).1.mem.pending tx = some id) := by
  refine ⟨fun e => rfl, ?_, ?_⟩
  · intro deps₁ d deps₂ hnp
    show ∃ b, (d.txHash, b) ∈
      (List.foldl (tickStep env) (s, ([] : List (String × Bool))) (deps₁ ++ d :: deps₂)).2
    rw [List.foldl_append, List.foldl_cons]
    have hnp' : ¬ (isProcessedSt
        (List.foldl (tickStep env) (s, ([] : List (String × Bool))) deps₁).1 d.txHash = true) := by
      rw [hnp]
      simp
    cases hr : (mintNFTForDepositSt env
        (List.foldl (tickStep env) (s, ([] : List (String × Bool))) deps₁).1 d.txHash).2
    · refine ⟨false, ?_⟩
      apply log_mono
      simp [tickStep, hnp', hr]
    · refine ⟨true, ?_⟩
      apply log_mono
      simp [tickStep, hnp', hr]
  · intro deps tx hfalse htrue
    have h0 : (tx, false) ∈ ([] : List (String × Bool)) →
        (tx, true) ∈ ([] : List (String × Bool)) ∨
        ∃ id, lookupP (s, ([] : List (String × Bool))).1.mem.pending tx = some id := by
      intro h
      cases h
    rcases tick_inv env deps (s, []) tx h0 hfalse with ht | hp
    · exact absurd ht htrue
    · exact hp

/-- Claim C9 witness: a three-deposit tick in which `"txB"`\'s delegation
fails while the others succeed, plus a failed fetch. -/
theorem C9_tick_error_propagation_witness :
    pollDeposits (TickEnv.mk (fun _ => true) (fun t => t != "txB") (fun _ => true)
        (fun _ => true) (fun _ => true)) (Except.error "boom") initSt = (initSt, []) ∧
    ("txB", false) ∈ (pollDeposits (TickEnv.mk (fun _ => true) (fun t => t != "txB")
        (fun _ => true) (fun _ => true) (fun _ => true))
        (.ok [⟨"txA", "s1", 27⟩, ⟨"txB", "s2", 27⟩, ⟨"txC", "s3", 27⟩]) initSt).2 ∧
    (∃ id, lookupP (pollDeposits (TickEnv.mk (fun _ => true) (fun t => t != "txB")
        (fun _ => true) (fun _ => true) (fun _ => true))
        (.ok [⟨"txA", "s1", 27⟩, ⟨"txB", "s2", 27⟩, ⟨"txC", "s3", 27⟩]) initSt).1.mem.pending
        "txB" = some id) :=
  ⟨(C9_tick_error_propagation _ initSt).1 "boom",
   by decide,
   (C9_tick_error_propagation _ initSt).2.2
     [⟨"txA", "s1", 27⟩, ⟨"txB", "s2", 27⟩, ⟨"txC", "s3", 27⟩] "txB" (by decide) (by decide)⟩


/-! ## Claim C7 -/

/-- Keys absent from an association list stay absent after any removal. -/
theorem lookupP_none_removeP (l : List (String × Nat)) (tx tx' : String)
    (h : lookupP l tx = none) : lookupP (removeP l tx') tx = none := by
  induction l with
  | nil => rfl
  | cons p rest ih =>
    by_cases hp : p.1 = tx
    · simp [lookupP, hp] at h
    · simp only [lookupP, if_neg hp] at h
      by_cases hp' : p.1 = tx'
      · simpa [removeP, List.filter_cons, hp'] using ih h
      · simpa [removeP, List.filter_cons, hp', lookupP, hp] using ih h

/-- One qualifying iteration of the reconciliation loop, in closed form. -/
theorem reconcileBody_eq (mx : Nat) (s : St) (p : String × Nat) (hp : p.2 ≤ mx) :
    (if p.2 ≤ mx then (saveSt (clearReservation s p.1 true).2 true).2 else s) =
      ⟨clearedMem s.mem p.1, snapNoPending (clearedMem s.mem p.1), s.issued⟩ := by
  rw [if_pos hp]
  rfl

/-- The reconciliation loop keeps already-cleared ids processed and
non-pending. -/
theorem reconcileLoop_preserves (mx : Nat) (entries : List (String × Nat)) (s : St)
    (tx : String) (h1 : tx ∈ s.mem.processed) (h2 : lookupP s.mem.pending tx = none) :
    tx ∈ (reconcileLoop mx entries s).mem.processed ∧
    lookupP (reconcileLoop mx entries s).mem.pending tx = none := by
  induction entries generalizing s with
  | nil => exact ⟨h1, h2⟩
  | cons p rest ih =>
    simp only [reconcileLoop, List.foldl_cons]
    by_cases hp : p.2 ≤ mx
    · rw [show (if p.2 ≤ mx then (saveSt (clearReservation s p.1 true).2 true).2 else s) =
          ⟨clearedMem s.mem p.1, snapNoPending (clearedMem s.mem p.1), s.issued⟩
        from reconcileBody_eq mx s p hp]
      have h1' : tx ∈ (clearedMem s.mem p.1).processed := mem_markProcessed s.mem tx p.1 h1
      have h2' : lookupP (clearedMem s.mem p.1).pending tx = none := by
        show lookupP (removeP (markProcessed s.mem p.1).pending p.1) tx = none
        rw [(markProcessed_counter_pending s.mem p.1).2]
        exact lookupP_none_removeP s.mem.pending tx p.1 h2
      simpa [reconcileLoop] using ih ⟨clearedMem s.mem p.1,
        snapNoPending (clearedMem s.mem p.1), s.issued⟩ h1' h2'
    · rw [if_neg hp]
      simpa [reconcileLoop] using ih s h1 h2

/-- Every pending entry at or below the on-chain maximum is cleared into
processed by the reconciliation loop. -/
theorem reconcileLoop_clears (mx : Nat) (entries : List (String × Nat)) (s : St)
    (tx : String) (id : Nat) (hin : (tx, id) ∈ entries) (hid : id ≤ mx) :
    tx ∈ (reconcileLoop mx entries s).mem.processed ∧
    lookupP (reconcileLoop mx entries s).mem.pending tx = none := by
  induction entries generalizing s with
  | nil => cases hin
  | cons p rest ih =>
    simp only [reconcileLoop, List.foldl_cons]
    rcases List.mem_cons.mp hin with heq | hrest
    · have hp : p.2 ≤ mx := by rw [← heq]; exact hid
      rw [show (if p.2 ≤ mx then (saveSt (clearReservation s p.1 true).2 true).2 else s) =
          ⟨clearedMem s.mem p.1, snapNoPending (clearedMem s.mem p.1), s.issued⟩
        from reconcileBody_eq mx s p hp]
      have hptx : p.1 = tx := by rw [← heq]
      have h1' : tx ∈ (clearedMem s.mem p.1).processed := by
        rw [hptx]
        exact self_mem_markProcessed s.mem tx
      have h2' : lookupP (clearedMem s.mem p.1).pending tx = none := by
        show lookupP (removeP (markProcessed s.mem p.1).pending p.1) tx = none
        rw [hptx]
        exact lookupP_removeP _ tx
      simpa [reconcileLoop] using reconcileLoop_preserves mx rest
        ⟨clearedMem s.mem p.1, snapNoPending (clearedMem s.mem p.1), s.issued⟩ tx h1' h2'
    · by_cases hp : p.2 ≤ mx
      · exact ih _ hrest
      · exact ih _ hrest

/-- The reconciliation loop never changes the counter. -/
theorem reconcileLoop_counter (mx : Nat) (entries : List (String × Nat)) (s : St) :
    (reconcileLoop mx entries s).mem.counter = s.mem.counter := by
  induction entries generalizing s with
  | nil => rfl
  | cons p rest ih =>
    simp only [reconcileLoop, List.foldl_cons]
    by_cases hp : p.2 ≤ mx
    · rw [show (if p.2 ≤ mx then (saveSt (clearReservation s p.1 true).2 true).2 else s) =
          ⟨clearedMem s.mem p.1, snapNoPending (clearedMem s.mem p.1), s.issued⟩
        from reconcileBody_eq mx s p hp]
      have h := ih ⟨clearedMem s.mem p.1, snapNoPending (clearedMem s.mem p.1), s.issued⟩
      simp only [reconcileLoop] at h
      rw [h]
      exact (markProcessed_counter_pending s.mem p.1).1
    · rw [if_neg hp]
      exact ih s

/-- The fast-forward step never touches the pending map. -/
theorem sync_pending (m : Nat) (s : St) :
    (newEngineSync m s).mem.pending = s.mem.pending := by
  unfold newEngineSync
  split <;> rfl

/-- The fast-forward step never touches the processed set. -/
theorem sync_processed (m : Nat) (s : St) :
    (newEngineSync m s).mem.processed = s.mem.processed := by
  unfold newEngineSync
  split <;> rfl

/-- The fast-forward step sets the counter past the on-chain maximum
exactly when that maximum reaches the current counter. -/
theorem sync_counter (m : Nat) (s : St) :
    (newEngineSync m s).mem.counter =
      if s.mem.counter < m + 1 then m + 1 else s.mem.counter := by
  unfold newEngineSync
  split <;> simp_all [saveSt]

/-- Startup reconciliation clears every loaded pending entry at or below
the on-chain maximum. -/
theorem startupReconcile_clears (m : Nat) (t : St) (tx : String) (id : Nat)
    (hin : (tx, id) ∈ t.mem.pending) (hid : id ≤ m) :
    tx ∈ (startupReconcile m t).mem.processed ∧
    lookupP (startupReconcile m t).mem.pending tx = none := by
  unfold startupReconcile
  have hpend := sync_pending m t
  have hne : t.mem.pending ≠ [] := List.ne_nil_of_mem hin
  have hemp : (newEngineSync m t).mem.pending.isEmpty = false := by
    rw [hpend]
    simpa [List.isEmpty_iff] using hne
  rw [hemp]
  simp only [Bool.false_eq_true, if_false]
  rw [hpend]
  exact reconcileLoop_clears m t.mem.pending (newEngineSync m t) tx id hin hid

/-- Claim C7 (confirmed): startup reconciliation fast-forwards the counter
past the observed on-chain maximum exactly when it exceeds the local
`nextSequence - 1` and persists that; every loaded pending entry whose
sequence is at most the on-chain maximum ends up processed and out of
pending; in particular a deposit reserved with sequence `s.mem.counter`,
after a reload from disk and reconciliation against an on-chain maximum at
least that sequence, is processed and absent from pending. -/
theorem C7_startup_reconciliation (s : St) (m : Nat) :
    ((startupReconcile m s).mem.counter =
      if s.mem.counter < m + 1 then m + 1 else s.mem.counter) ∧
    (s.mem.counter < m + 1 →
      (newEngineSync m s).disk = snapNoPending (newEngineSync m s).mem) ∧
    (∀ tx id, (tx, id) ∈ s.mem.pending → id ≤ m →
      tx ∈ (startupReconcile m s).mem.processed ∧
      lookupP (startupReconcile m s).mem.pending tx = none) ∧
    (∀ tx, lookupP s.mem.pending tx = none → s.mem.counter ≤ m →
      tx ∈ (startupReconcile m (reloadSt (reservePendingMint s tx true).2)).mem.processed ∧
      lookupP (startupReconcile m
        (reloadSt (reservePendingMint s tx true).2)).mem.pending tx = none) := by
  refine ⟨?_, ?_, ?_, ?_⟩
  · unfold startupReconcile
    by_cases hemp : (newEngineSync m s).mem.pending.isEmpty
    · rw [hemp]
      simp only [if_true]
      exact sync_counter m s
    · rw [Bool.not_eq_true] at hemp
      rw [hemp]
      simp only [Bool.false_eq_true, if_false]
      rw [reconcileLoop_counter]
      exact sync_counter m s
  · intro hc
    unfold newEngineSync
    rw [if_pos hc]
    rfl
  · intro tx id hin hid
    exact startupReconcile_clears m s tx id hin hid
  · intro tx hfresh hcm
    have hres : (reservePendingMint s tx true).2 =
        ⟨⟨s.mem.counter + 1, s.mem.processed, s.mem.pending ++ [(tx, s.mem.counter)]⟩,
         snapFull ⟨s.mem.counter + 1, s.mem.processed, s.mem.pending ++ [(tx, s.mem.counter)]⟩,
         s.issued ++ [(tx, s.mem.counter)]⟩ := by
      simp [reservePendingMint, hfresh, snapFull]
    have hin : (tx, s.mem.counter) ∈
        (reloadSt (reservePendingMint s tx true).2).mem.pending := by
      rw [hres]
      simp [reloadSt, fromSnap, snapFull]
    exact startupReconcile_clears m (reloadSt (reservePendingMint s tx true).2)
      tx s.mem.counter hin hcm

/-- Claim C7 witness: the crash-recovery scenario with sequence 7 for
deposit `"txA"` and on-chain maximum 7. -/
theorem C7_startup_reconciliation_witness :
    lookupP (⟨⟨7, [], []⟩, snapNoPending ⟨7, [], []⟩, []⟩ : St).mem.pending "txA" = none ∧
    (7 : Nat) ≤ 7 ∧
    ("txA" ∈ (startupReconcile 7 (reloadSt (reservePendingMint
        ⟨⟨7, [], []⟩, snapNoPending ⟨7, [], []⟩, []⟩ "txA" true).2)).mem.processed ∧
      lookupP (startupReconcile 7 (reloadSt (reservePendingMint
        ⟨⟨7, [], []⟩, snapNoPending ⟨7, [], []⟩, []⟩ "txA" true).2)).mem.pending "txA" = none) :=
  ⟨by decide, by decide,
    (C7_startup_reconciliation ⟨⟨7, [], []⟩, snapNoPending ⟨7, [], []⟩, []⟩ 7).2.2.2 "txA"
      (by decide) (by decide)⟩

/-- Claim C2 amended witness: on the store that reserved and then cleared
`"a"`, the id is processed and non-pending, and a repeated clear leaves
memory unchanged. -/
theorem C2_clear_reservation_witness :
    isProcessedSt (clearReservation initSt "a" true).2 "a" = true ∧
    lookupP ((clearReservation initSt "a" true).2).mem.pending "a" = none ∧
    ((clearReservation ((clearReservation initSt "a" true).2) "a" true).2).mem =
      ((clearReservation initSt "a" true).2).mem :=
  ⟨by decide, by decide,
    (C2_clear_reservation ((clearReservation initSt "a" true).2) "a").2.2.2.2.2.2
      (by decide) (by decide)⟩

/-! ## Claim C6 -/

/-- When even the whole list misses `required`, the loop selects every
unit and returns the full sum. -/
theorem selectLoop_exhaust (req : Nat) (l : List UTxO) (sel : List String) (sum : Nat)
    (h : sum + sumLov l < req) :
    selectLoop req l sel sum = (sel ++ l.map (fun u => u.id), sum + sumLov l) := by
  induction l generalizing sel sum with
  | nil => simp [selectLoop, sumLov]
  | cons c rest ih =>
    have hs : sumLov (c :: rest) = c.lovelace + sumLov rest := by simp [sumLov]
    rw [hs] at h
    have hc : ¬ (req ≤ sum + c.lovelace) := by omega
    simp only [selectLoop, if_neg hc]
    rw [ih (sel ++ [c.id]) (sum + c.lovelace) (by omega)]
    simp [hs, List.append_assoc, Nat.add_assoc]

/-- When the list can reach `required`, the loop stops at the shortest
prefix whose sum does so. -/
theorem selectLoop_reach (req : Nat) (l : List UTxO) (sel : List String) (sum : Nat)
    (hlt : sum < req) (hge : req ≤ sum + sumLov l) :
    ∃ k, 1 ≤ k ∧ k ≤ l.length ∧
      selectLoop req l sel sum = (sel ++ (l.map (fun u => u.id)).take k, sum + sumLov (l.take k)) ∧
      req ≤ sum + sumLov (l.take k) ∧
      ∀ j < k, sum + sumLov (l.take j) < req := by
  induction l generalizing sel sum with
  | nil =>
    simp [sumLov] at hge
    omega
  | cons c rest ih =>
    have hs : sumLov (c :: rest) = c.lovelace + sumLov rest := by simp [sumLov]
    by_cases hc : req ≤ sum + c.lovelace
    · refine ⟨1, le_refl 1, by simp, ?_, ?_, ?_⟩
      · simp [selectLoop, hc, sumLov]
      · simpa [sumLov] using hc
      · intro j hj
        have : j = 0 := by omega
        subst this
        simpa [sumLov] using hlt
    · obtain ⟨k, hk1, hklen, heq, hreach, hmin⟩ :=
        ih (sel ++ [c.id]) (sum + c.lovelace) (by omega) (by rw [hs] at hge; omega)
      refine ⟨k + 1, by omega, by simp; omega, ?_, ?_, ?_⟩
      · simp only [selectLoop, if_neg hc]
        rw [heq]
        simp [sumLov, List.append_assoc, Nat.add_assoc]
      · simp only [List.take_succ_cons]
        rw [show sumLov (c :: rest.take k) = c.lovelace + sumLov (rest.take k) from by simp [sumLov]]
        omega
      · intro j hj
        cases j with
        | zero => simpa [sumLov] using hlt
        | succ j' =>
          have hj' := hmin j' (by omega)
          simp only [List.take_succ_cons]
          rw [show sumLov (c :: rest.take j') = c.lovelace + sumLov (rest.take j') from by simp [sumLov]]
          omega


/-- Claim C6 as amended: coin selection filters to foreign-free units of
positive value, sorts them descending by value, and on success returns the
shortest prefix of that order reaching `required` (so every selected unit
is foreign-free and the sum covers `required`); when the filtered set is
nonempty but sums below `required` it fails with the insufficient-funds
error reporting have and required; when the filtered set is empty it fails
with the distinct no-lovelace-only error.  No partial selection is ever
returned. -/
theorem C6_coin_selection (utxos : List UTxO) (required : Nat) (hreq : 0 < required) :
    (∀ sel total, selectInputs utxos required = .ok (sel, total) →
        required ≤ total ∧
        (∃ k, sel = (((utxos.filter isCandidate).insertionSort byLovelaceDesc).map
              (fun u => u.id)).take k ∧
          total = sumLov (((utxos.filter isCandidate).insertionSort byLovelaceDesc).take k) ∧
          ∀ j < k,
            sumLov (((utxos.filter isCandidate).insertionSort byLovelaceDesc).take j) < required) ∧
        (∀ i ∈ sel, ∃ u, u ∈ utxos ∧ u.id = i ∧ u.assets = [] ∧ 0 < u.lovelace)) ∧
    (utxos.filter isCandidate ≠ [] → sumLov (utxos.filter isCandidate) < required →
        selectInputs utxos required =
          .error (.insufficient (sumLov (utxos.filter isCandidate)) required)) ∧
    (utxos.filter isCandidate = [] →
        selectInputs utxos required = .error .noLovelaceOnly) ∧
    List.Sorted byLovelaceDesc ((utxos.filter isCandidate).insertionSort byLovelaceDesc) ∧
    ((utxos.filter isCandidate).insertionSort byLovelaceDesc).Perm
      (utxos.filter isCandidate) := by
  have hperm : ((utxos.filter isCandidate).insertionSort byLovelaceDesc).Perm
      (utxos.filter isCandidate) := List.perm_insertionSort _ _
  have hsum : sumLov ((utxos.filter isCandidate).insertionSort byLovelaceDesc) =
      sumLov (utxos.filter isCandidate) := by
    have h := (hperm.map (fun u : UTxO => u.lovelace)).sum_eq
    simpa [sumLov] using h
  refine ⟨?_, ?_, ?_, List.sorted_insertionSort _ _, hperm⟩
  · intro sel total hok
    by_cases hemp : (utxos.filter isCandidate).isEmpty
    · simp [selectInputs, hemp] at hok
    · by_cases hlow : sumLov ((utxos.filter isCandidate).insertionSort byLovelaceDesc) < required
      · have hex := selectLoop_exhaust required
          ((utxos.filter isCandidate).insertionSort byLovelaceDesc) [] 0 (by omega)
        simp [selectInputs, hemp, hex, hlow] at hok
      · obtain ⟨k, hk1, hklen, heq, hreach, hmin⟩ := selectLoop_reach required
          ((utxos.filter isCandidate).insertionSort byLovelaceDesc) [] 0 hreq (by omega)
        have hok' : selectInputs utxos required =
            .ok ((((utxos.filter isCandidate).insertionSort byLovelaceDesc).map
                (fun u => u.id)).take k,
              sumLov (((utxos.filter isCandidate).insertionSort byLovelaceDesc).take k)) := by
          simp [selectInputs, hemp, heq]
          omega
        rw [hok'] at hok
        obtain ⟨hsel, htot⟩ : sel = (((utxos.filter isCandidate).insertionSort
            byLovelaceDesc).map (fun u => u.id)).take k ∧
            total = sumLov (((utxos.filter isCandidate).insertionSort byLovelaceDesc).take k) := by
          have := hok
          simp at this
          exact ⟨this.1.symm, this.2.symm⟩
        refine ⟨?_, ⟨k, hsel, htot, ?_⟩, ?_⟩
        · omega
        · intro j hj
          have := hmin j hj
          omega
        · intro i hi
          rw [hsel] at hi
          have hi' : i ∈ ((utxos.filter isCandidate).insertionSort byLovelaceDesc).map
              (fun u => u.id) := List.mem_of_mem_take hi
          obtain ⟨u, hu, rfl⟩ := List.mem_map.mp hi'
          have humem : u ∈ utxos.filter isCandidate := hperm.subset hu
          have hu1 := List.mem_of_mem_filter humem
          have hu2 : u.assets = [] ∧ 0 < u.lovelace := by
            have h := List.of_mem_filter humem
            simpa [isCandidate] using h
          exact ⟨u, hu1, rfl, hu2.1, hu2.2⟩
  · intro hne hlow
    have hemp : (utxos.filter isCandidate).isEmpty = false := by
      simpa [List.isEmpty_iff] using hne
    have hex := selectLoop_exhaust required
      ((utxos.filter isCandidate).insertionSort byLovelaceDesc) [] 0 (by omega)
    simp [selectInputs, hemp, hex, hsum, hlow]
  · intro he
    have hemp : (utxos.filter isCandidate).isEmpty = true := by simp [he]
    simp [selectInputs, hemp]


/-- Claim C6 counterexample: with a single foreign-value unit and
`required = 4`, the filtered units sum to `0 < 4`, yet selection fails with
the no-lovelace-only error rather than `InsufficientFunds` reporting
have `0` and required `4` as the claim states. -/
theorem C6_counterexample_empty_filtered :
    selectInputs [⟨"u1", 5, [("pol", 1)]⟩] 4 = .error .noLovelaceOnly ∧
    SelErr.noLovelaceOnly ≠ SelErr.insufficient 0 4 :=
  ⟨rfl, by decide⟩

/-- Claim C6 amended witness: an insufficiency case and a success case. -/
theorem C6_coin_selection_witness :
    selectInputs [⟨"u1", 5, [("pol", 1)]⟩, ⟨"u2", 3, []⟩, ⟨"u3", 4, []⟩] 29 =
      .error (.insufficient 7 29) ∧
    (29 : Nat) ≤ 29 ∧
    (4 : Nat) ≤ 4 :=
  ⟨(C6_coin_selection [⟨"u1", 5, [("pol", 1)]⟩, ⟨"u2", 3, []⟩, ⟨"u3", 4, []⟩] 29
      (by decide)).2.1 (by decide) (by decide),
   by decide,
   ((C6_coin_selection [⟨"u1", 5, [("pol", 1)]⟩, ⟨"u2", 3, []⟩, ⟨"u3", 4, []⟩] 4
      (by decide)).1 ["u3"] 4 rfl).1⟩

/-! ## Claim C10 -/

/-- Hex digit encode/decode round trip on nibbles. -/
theorem hexDigitVal_hexDigitChar : ∀ n, n < 16 → hexDigitVal (hexDigitChar n) = some n := by
  decide

/-- Hex encode then decode is the identity on byte slices. -/
theorem hexDecode_hexEncode (bs : List Nat) (h : ∀ b ∈ bs, b < 256) :
    hexDecode (hexEncode bs) = some bs := by
  induction bs with
  | nil => rfl
  | cons b rest ih =>
    have hb : b < 256 := h b (List.mem_cons_self b rest)
    have hhi : b / 16 < 16 := by omega
    have hlo : b % 16 < 16 := Nat.mod_lt b (by omega)
    have henc : hexEncode (b :: rest) =
        hexDigitChar (b / 16) :: hexDigitChar (b % 16) :: hexEncode rest := by
      simp [hexEncode, hexEncodeByte]
    rw [henc]
    rw [show hexDecode (hexDigitChar (b / 16) :: hexDigitChar (b % 16) :: hexEncode rest) =
        match hexDigitVal (hexDigitChar (b / 16)), hexDigitVal (hexDigitChar (b % 16)),
          hexDecode (hexEncode rest) with
        | some h, some l, some bs => some ((16 * h + l) :: bs)
        | _, _, _ => none
      from rfl]
    rw [hexDigitVal_hexDigitChar _ hhi, hexDigitVal_hexDigitChar _ hlo,
      ih (fun x hx => h x (List.mem_cons_of_mem b hx))]
    have : 16 * (b / 16) + b % 16 = b := by omega
    simp [this]

/-- Every produced decimal digit is below ten. -/
theorem natDigitsRev_lt (n : Nat) : ∀ d ∈ natDigitsRev n, d < 10 := by
  induction n using Nat.strong_induction_on with
  | _ n ih =>
    match n with
    | 0 =>
      intro d hd
      simp [natDigitsRev] at hd
    | m + 1 =>
      intro d hd
      rw [natDigitsRev] at hd
      rcases List.mem_cons.mp hd with heq | hmem
      · rw [heq]
        exact Nat.mod_lt _ (by omega)
      · exact ih ((m + 1) / 10) (Nat.div_lt_self (Nat.succ_pos m) (by omega)) d hmem

/-- Value of the digit list read most-significant first. -/
theorem digitsRev_foldl (n : Nat) : ∀ acc,
    ((natDigitsRev n).reverse).foldl (fun a d => a * 10 + d) acc =
      acc * 10 ^ (natDigitsRev n).length + n := by
  induction n using Nat.strong_induction_on with
  | _ n ih =>
    match n with
    | 0 =>
      intro acc
      simp [natDigitsRev]
    | m + 1 =>
      intro acc
      rw [show natDigitsRev (m + 1) = (m + 1) % 10 :: natDigitsRev ((m + 1) / 10)
        from by rw [natDigitsRev]]
      rw [List.reverse_cons, List.foldl_append,
        ih ((m + 1) / 10) (Nat.div_lt_self (Nat.succ_pos m) (by omega)) acc]
      simp only [List.foldl_cons, List.foldl_nil, List.length_cons]
      have hdm : 10 * ((m + 1) / 10) + (m + 1) % 10 = m + 1 := Nat.div_add_mod (m + 1) 10
      calc (acc * 10 ^ (natDigitsRev ((m + 1) / 10)).length + (m + 1) / 10) * 10 + (m + 1) % 10
          = acc * (10 ^ (natDigitsRev ((m + 1) / 10)).length * 10) +
            (10 * ((m + 1) / 10) + (m + 1) % 10) := by ring
        _ = acc * 10 ^ ((natDigitsRev ((m + 1) / 10)).length + 1) + (m + 1) := by
            rw [hdm, pow_succ]


/-- Decimal digit encode/decode round trip. -/
theorem digitVal_digitChar : ∀ d, d < 10 → digitVal (digitChar d) = some d := by
  decide

/-- Digit characters are not spaces. -/
theorem digitChar_ne_space : ∀ d, d < 10 → ¬ digitChar d = ' ' := by
  decide

/-- The digit scanner folds exactly over encoded digits. -/
theorem scanDigits_digits (ds : List Nat) (h : ∀ d ∈ ds, d < 10) (acc : Nat) :
    scanDigits (ds.map digitChar) acc = ds.foldl (fun a d => a * 10 + d) acc := by
  induction ds generalizing acc with
  | nil => rfl
  | cons d rest ih =>
    have hd : d < 10 := h d (List.mem_cons_self d rest)
    simp only [List.map_cons, scanDigits, digitVal_digitChar d hd, List.foldl_cons]
    exact ih (fun x hx => h x (List.mem_cons_of_mem d hx)) (acc * 10 + d)

/-- The decimal scanner on a digit-headed string. -/
theorem scanDec_cons_digit (c : Char) (rest : List Char) (d : Nat)
    (hs : ¬ c = ' ') (hv : digitVal c = some d) :
    scanDec (c :: rest) = some (scanDigits rest d) := by
  have hskip : skipSpaces (c :: rest) = c :: rest := by
    rw [skipSpaces]
    exact if_neg hs
  simp [scanDec, hskip, hv]

/-- Printing a number decimally and scanning it back recovers it. -/
theorem scanDec_natDec (n : Nat) : scanDec (natDec n) = some n := by
  by_cases h0 : n = 0
  · subst h0
    decide
  · have hne : natDigitsRev n ≠ [] := by
      match n, h0 with
      | m + 1, _ =>
        rw [natDigitsRev]
        exact List.cons_ne_nil _ _
    have hrne : (natDigitsRev n).reverse ≠ [] := by
      simpa using hne
    obtain ⟨d₀, ds', hcons⟩ := List.exists_cons_of_ne_nil hrne
    have hlt : ∀ d ∈ (natDigitsRev n).reverse, d < 10 := by
      intro d hd
      exact natDigitsRev_lt n d (List.mem_reverse.mp hd)
    have hd₀ : d₀ < 10 := hlt d₀ (by rw [hcons]; exact List.mem_cons_self _ _)
    have hds' : ∀ d ∈ ds', d < 10 := by
      intro d hd
      exact hlt d (by rw [hcons]; exact List.mem_cons_of_mem _ hd)
    have hval : (natDigitsRev n).reverse.foldl (fun a d => a * 10 + d) 0 = n := by
      have := digitsRev_foldl n 0
      simpa using this
    have hnatDec : natDec n = digitChar d₀ :: ds'.map digitChar := by
      rw [natDec, if_neg h0, hcons, List.map_cons]
    rw [hnatDec, scanDec_cons_digit (digitChar d₀) (ds'.map digitChar) d₀
      (digitChar_ne_space d₀ hd₀) (digitVal_digitChar d₀ hd₀)]
    rw [scanDigits_digits ds' hds' d₀]
    have : (d₀ :: ds').foldl (fun a d => a * 10 + d) 0 = n := by
      rw [← hcons]
      exact hval
    simp only [List.foldl_cons] at this
    simpa using this


/-- A marker always leads its own extensions. -/
theorem hasPre_append (pre x : List Char) : hasPre pre (pre ++ x) = true := by
  induction pre with
  | nil => rfl
  | cons c rest ih => simp [hasPre, ih]

/-- The name parser recovers the sequence id from a derived name. -/
theorem flowmassNumOfName_displayName (id : Nat) :
    flowmassNumOfName (displayName id) = some id := by
  unfold flowmassNumOfName displayName
  simp only [hasPre_append, if_true]
  rw [List.drop_left]
  exact scanDec_natDec id

/-- Every character of a printed number is a decimal digit. -/
theorem natDec_chars (id : Nat) : ∀ c ∈ natDec id, ∃ d, d < 10 ∧ c = digitChar d := by
  intro c hc
  unfold natDec at hc
  by_cases h0 : id = 0
  · rw [if_pos h0] at hc
    have : c = digitChar 0 := by simpa using hc
    exact ⟨0, by omega, this⟩
  · rw [if_neg h0] at hc
    obtain ⟨d, hd, rfl⟩ := List.mem_map.mp hc
    exact ⟨d, natDigitsRev_lt id d (List.mem_reverse.mp hd), rfl⟩

/-- A derived display name is plain ASCII. -/
theorem displayName_bytes_lt (id : Nat) : ∀ b ∈ charsBytes (displayName id), b < 256 := by
  intro b hb
  unfold charsBytes at hb
  obtain ⟨c, hc, rfl⟩ := List.mem_map.mp hb
  rcases List.mem_append.mp hc with hpre | hdig
  · have hh : ∀ c ∈ "Flowmass ".data, c.toNat < 256 := by decide
    exact hh c hpre
  · obtain ⟨d, hd, rfl⟩ := natDec_chars id c hdig
    have hh : ∀ d, d < 10 → (digitChar d).toNat < 256 := by decide
    exact hh d hd

/-- Byte-slice/string conversion round trips on a derived display
name. -/
theorem bytesChars_charsBytes_displayName (n : Nat) :
    bytesChars (charsBytes (displayName n)) = displayName n := by
  unfold bytesChars charsBytes
  rw [List.map_map]
  have hpt : ∀ c ∈ displayName n, (Char.ofNat ∘ Char.toNat) c = c := by
    intro c hc
    rcases List.mem_append.mp hc with hpre | hdig
    · have hh : ∀ c ∈ "Flowmass ".data, Char.ofNat c.toNat = c := by decide
      exact hh c hpre
    · obtain ⟨d, hd, rfl⟩ := natDec_chars n c hdig
      have hh : ∀ d, d < 10 → Char.ofNat ((digitChar d).toNat) = digitChar d := by decide
      exact hh d hd
  calc List.map (Char.ofNat ∘ Char.toNat) (displayName n)
      = List.map (fun c => c) (displayName n) := List.map_congr_left hpt
    _ = displayName n := List.map_id' _

/-- The per-asset extraction of the reconciliation scan recovers the
sequence id from this process\'s own asset string. -/
theorem flowmassNumOfAsset_roundtrip (pid : List Char) (id : Nat) :
    flowmassNumOfAsset pid (pid ++ hexAssetName id) = some id := by
  unfold flowmassNumOfAsset
  simp only [hasPre_append, if_true, List.drop_left]
  have hne : (hexAssetName id).isEmpty = false := by
    rw [show hexAssetName id = hexEncode (charsBytes (displayName id)) from rfl]
    rw [show displayName id = 'F' :: ("lowmass ".data ++ natDec id) from rfl]
    rfl
  rw [hne]
  simp only [Bool.false_eq_true, if_false]
  rw [show hexAssetName id = hexEncode (charsBytes (displayName id)) from rfl]
  rw [hexDecode_hexEncode (charsBytes (displayName id)) (displayName_bytes_lt id)]
  show flowmassNumOfName (bytesChars (charsBytes (displayName id))) = some id
  rw [bytesChars_charsBytes_displayName id]
  exact flowmassNumOfName_displayName id

/-- The running maximum of the asset scan never decreases. -/
theorem maxOnChainScan_mono (pid : List Char) (assets : List (List Char)) (acc : Nat) :
    acc ≤ assets.foldl (fun mx a =>
      match flowmassNumOfAsset pid a with
      | some n => if mx < n then n else mx
      | none => mx) acc := by
  induction assets generalizing acc with
  | nil => exact Nat.le_refl acc
  | cons a rest ih =>
    rw [List.foldl_cons]
    refine Nat.le_trans ?_ (ih _)
    cases hp : flowmassNumOfAsset pid a with
    | some n =>
      simp only [hp]
      split <;> omega
    | none => simp [hp]

/-- The asset scan's result dominates every parsed sequence number in the
list. -/
theorem maxOnChainScan_ge (pid : List Char) (assets : List (List Char)) (a : List Char)
    (n : Nat) (ha : a ∈ assets) (hp : flowmassNumOfAsset pid a = some n) :
    n ≤ maxOnChainScan pid assets := by
  unfold maxOnChainScan
  have main : ∀ (l : List (List Char)) (acc : Nat), a ∈ l →
      n ≤ l.foldl (fun mx a =>
        match flowmassNumOfAsset pid a with
        | some n => if mx < n then n else mx
        | none => mx) acc := by
    intro l
    induction l with
    | nil => intro acc h; cases h
    | cons b rest ih =>
      intro acc hmem
      rw [List.foldl_cons]
      rcases List.mem_cons.mp hmem with heq | hrest
      · subst heq
        refine Nat.le_trans ?_ (maxOnChainScan_mono pid rest _)
        simp only [hp]
        split <;> omega
      · exact ih _ hrest
  exact main assets 0 ha

/-- Claim C10 (confirmed): the display name is the fixed marker plus the
decimal number, hex-decoding its hex-encoded on-chain form recovers it, the
reconciliation parser recovers exactly the sequence id, and any asset list
containing the asset makes the on-chain maximum scan reach at least id. -/
theorem C10_asset_name_roundtrip (id : Nat) (_h : 1 ≤ id) (pid : List Char) :
    displayName id = "Flowmass ".data ++ natDec id ∧
    hexDecode (hexAssetName id) = some (charsBytes (displayName id)) ∧
    bytesChars (charsBytes (displayName id)) = displayName id ∧
    flowmassNumOfName (displayName id) = some id ∧
    flowmassNumOfAsset pid (pid ++ hexAssetName id) = some id ∧
    (∀ assets, (pid ++ hexAssetName id) ∈ assets → id ≤ maxOnChainScan pid assets) :=
  ⟨rfl,
   hexDecode_hexEncode (charsBytes (displayName id)) (displayName_bytes_lt id),
   bytesChars_charsBytes_displayName id,
   flowmassNumOfName_displayName id,
   flowmassNumOfAsset_roundtrip pid id,
   fun assets ha => maxOnChainScan_ge pid assets _ id ha (flowmassNumOfAsset_roundtrip pid id)⟩

/-- Claim C10 witness at id 1 and a two-character policy id. -/
theorem C10_asset_name_roundtrip_witness :
    (1 : Nat) ≤ 1 ∧
    flowmassNumOfName (displayName 1) = some 1 ∧
    flowmassNumOfAsset "ab".data ("ab".data ++ hexAssetName 1) = some 1 :=
  ⟨by decide,
   (C10_asset_name_roundtrip 1 (by decide) "ab".data).2.2.2.1,
   (C10_asset_name_roundtrip 1 (by decide) "ab".data).2.2.2.2.1⟩

/-! ## Claim C3 -/

/-- A successful lookup exhibits a member. -/
theorem lookupP_some_mem (l : List (String × Nat)) (tx : String) (v : Nat)
    (h : lookupP l tx = some v) : (tx, v) ∈ l := by
  induction l with
  | nil => simp [lookupP] at h
  | cons p rest ih =>
    obtain ⟨a, b⟩ := p
    by_cases hp : a = tx
    · subst hp
      simp only [lookupP, if_pos rfl] at h
      have hb : b = v := by simpa using h
      subst hb
      exact List.mem_cons_self _ _
    · simp only [lookupP, if_neg hp] at h
      exact List.mem_cons_of_mem _ (ih h)

/-- Issuing to one deposit never changes another deposit's issue log. -/
theorem issuedFor_append_ne (issued : List (String × Nat)) (tx tx' : String) (v : Nat)
    (hne : ¬ tx' = tx) :
    (issued ++ [(tx', v)]).filter (fun p => p.1 == tx) =
      issued.filter (fun p => p.1 == tx) := by
  rw [List.filter_append]
  have h1 : List.filter (fun p => p.1 == tx) [(tx', v)] = [] := by
    simp [hne]
  rw [h1, List.append_nil]

/-- An idempotent reservation hit, in closed form. -/
theorem reserve_eq_some (s : St) (tx : String) (i : Nat)
    (h : lookupP s.mem.pending tx = some i) (ok : Bool) :
    (reservePendingMint s tx ok).2 = ⟨s.mem, s.disk, s.issued ++ [(tx, i)]⟩ := by
  simp [reservePendingMint, h]

/-- A fresh, persisted reservation, in closed form. -/
theorem reserve_eq_none (s : St) (tx : String) (h : lookupP s.mem.pending tx = none) :
    (reservePendingMint s tx true).2 =
      ⟨⟨s.mem.counter + 1, s.mem.processed, s.mem.pending ++ [(tx, s.mem.counter)]⟩,
       snapFull ⟨s.mem.counter + 1, s.mem.processed, s.mem.pending ++ [(tx, s.mem.counter)]⟩,
       s.issued ++ [(tx, s.mem.counter)]⟩ := by
  simp [reservePendingMint, h, snapFull]

/-- Every well-formed store operation preserves the MintState invariant,
never decreases the counter, keeps processed deposits processed, and never
issues a further sequence to a processed deposit. -/
theorem inv_step (s : St) (op : Op) (hinv : InvSt s) (hok : okOpB s op = true) :
    InvSt (step s op) ∧ s.mem.counter ≤ (step s op).mem.counter ∧
    (∀ tx ∈ s.mem.processed, tx ∈ (step s op).mem.processed) ∧
    (∀ tx ∈ s.mem.processed, issuedFor (step s op) tx = issuedFor s tx) := by
  cases op with
  | reserve tx' ok =>
    simp only [okOpB, Bool.and_eq_true, Bool.not_eq_true'] at hok
    obtain ⟨hokt, hnp⟩ := hok
    subst hokt
    have hnp' : tx' ∉ s.mem.processed := by
      simpa [isProcessedSt] using hnp
    show InvSt (reservePendingMint s tx' true).2 ∧
      s.mem.counter ≤ (reservePendingMint s tx' true).2.mem.counter ∧
      (∀ tx ∈ s.mem.processed, tx ∈ (reservePendingMint s tx' true).2.mem.processed) ∧
      (∀ tx ∈ s.mem.processed, issuedFor (reservePendingMint s tx' true).2 tx = issuedFor s tx)
    cases hl : lookupP s.mem.pending tx' with
    | some i =>
      rw [reserve_eq_some s tx' i hl true]
      have hpm : (tx', i) ∈ s.mem.pending := lookupP_some_mem _ _ _ hl
      have hiss : (tx', i) ∈ s.issued := hinv.memPendIssued _ hpm
      refine ⟨⟨hinv.diskCounter, hinv.memPendLt, hinv.diskPendLt, ?_, ?_, ?_, ?_,
        hinv.procSync⟩, Nat.le_refl _, fun tx h => h, ?_⟩
      · intro p hp
        rcases List.mem_append.mp hp with hold | hnew
        · exact hinv.issuedLt p hold
        · have : p = (tx', i) := by simpa using hnew
          rw [this]
          exact hinv.memPendLt _ hpm
      · intro p hp
        exact List.mem_append_left _ (hinv.memPendIssued p hp)
      · intro p hp
        exact List.mem_append_left _ (hinv.diskPendIssued p hp)
      · intro p hp q hq heq
        rcases List.mem_append.mp hp with hp1 | hp2 <;>
          rcases List.mem_append.mp hq with hq1 | hq2
        · exact hinv.seqInj p hp1 q hq1 heq
        · have hq' : q = (tx', i) := by simpa using hq2
          rw [hq'] at heq ⊢
          exact hinv.seqInj p hp1 (tx', i) hiss heq
        · have hp' : p = (tx', i) := by simpa using hp2
          rw [hp'] at heq ⊢
          exact (hinv.seqInj q hq1 (tx', i) hiss heq.symm).symm
        · have hp' : p = (tx', i) := by simpa using hp2
          have hq' : q = (tx', i) := by simpa using hq2
          rw [hp', hq']
      · intro tx htx
        have hne : ¬ tx' = tx := fun h => hnp' (h ▸ htx)
        exact issuedFor_append_ne s.issued tx tx' i hne
    | none =>
      rw [reserve_eq_none s tx' hl]
      refine ⟨⟨rfl, ?_, ?_, ?_, ?_, ?_, ?_, rfl⟩, Nat.le_succ _, fun tx h => h, ?_⟩
      · intro p hp
        rcases List.mem_append.mp hp with hold | hnew
        · exact Nat.lt_succ_of_lt (hinv.memPendLt p hold)
        · have : p = (tx', s.mem.counter) := by simpa using hnew
          rw [this]
          exact Nat.lt_succ_self _
      · intro p hp
        rcases List.mem_append.mp hp with hold | hnew
        · exact Nat.lt_succ_of_lt (hinv.memPendLt p hold)
        · have : p = (tx', s.mem.counter) := by simpa using hnew
          rw [this]
          exact Nat.lt_succ_self _
      · intro p hp
        rcases List.mem_append.mp hp with hold | hnew
        · exact Nat.lt_succ_of_lt (hinv.issuedLt p hold)
        · have : p = (tx', s.mem.counter) := by simpa using hnew
          rw [this]
          exact Nat.lt_succ_self _
      · intro p hp
        rcases List.mem_append.mp hp with hold | hnew
        · exact List.mem_append_left _ (hinv.memPendIssued p hold)
        · exact List.mem_append_right _ hnew
      · intro p hp
        rcases List.mem_append.mp hp with hold | hnew
        · exact List.mem_append_left _ (hinv.memPendIssued p hold)
        · exact List.mem_append_right _ hnew
      · intro p hp q hq heq
        rcases List.mem_append.mp hp with hp1 | hp2 <;>
          rcases List.mem_append.mp hq with hq1 | hq2
        · exact hinv.seqInj p hp1 q hq1 heq
        · have hq' : q = (tx', s.mem.counter) := by simpa using hq2
          have : p.2 < s.mem.counter := hinv.issuedLt p hp1
          rw [hq'] at heq
          omega
        · have hp' : p = (tx', s.mem.counter) := by simpa using hp2
          have : q.2 < s.mem.counter := hinv.issuedLt q hq1
          rw [hp'] at heq
          omega
        · have hp' : p = (tx', s.mem.counter) := by simpa using hp2
          have hq' : q = (tx', s.mem.counter) := by simpa using hq2
          rw [hp', hq']
      · intro tx htx
        have hne : ¬ tx' = tx := fun h => hnp' (h ▸ htx)
        exact issuedFor_append_ne s.issued tx tx' s.mem.counter hne
  | finalize tx' ok =>
    have hokt : ok = true := by simpa [okOpB] using hok
    subst hokt
    show InvSt (clearReservation s tx' true).2 ∧
      s.mem.counter ≤ (clearReservation s tx' true).2.mem.counter ∧
      (∀ tx ∈ s.mem.processed, tx ∈ (clearReservation s tx' true).2.mem.processed) ∧
      (∀ tx ∈ s.mem.processed, issuedFor (clearReservation s tx' true).2 tx = issuedFor s tx)
    rw [clearReservation_eq s tx']
    have hcnt : (clearedMem s.mem tx').counter = s.mem.counter :=
      (markProcessed_counter_pending s.mem tx').1
    have hpend : (clearedMem s.mem tx').pending = removeP s.mem.pending tx' := by
      show removeP (markProcessed s.mem tx').pending tx' = removeP s.mem.pending tx'
      rw [(markProcessed_counter_pending s.mem tx').2]
    refine ⟨⟨rfl, ?_, ?_, ?_, ?_, ?_, hinv.seqInj, rfl⟩, Nat.le_of_eq hcnt.symm,
      fun tx h => mem_markProcessed s.mem tx tx' h, fun tx _ => rfl⟩
    · intro p hp
      rw [hpend] at hp
      rw [hcnt]
      exact hinv.memPendLt p (List.mem_of_mem_filter hp)
    · intro p hp
      rw [show ((⟨clearedMem s.mem tx', snapFull (clearedMem s.mem tx'),
          s.issued⟩ : St)).disk.pending.getD [] = (clearedMem s.mem tx').pending from rfl,
        hpend] at hp
      rw [hcnt]
      exact hinv.memPendLt p (List.mem_of_mem_filter hp)
    · intro p hp
      rw [hcnt]
      exact hinv.issuedLt p hp
    · intro p hp
      rw [hpend] at hp
      exact hinv.memPendIssued p (List.mem_of_mem_filter hp)
    · intro p hp
      rw [show ((⟨clearedMem s.mem tx', snapFull (clearedMem s.mem tx'),
          s.issued⟩ : St)).disk.pending.getD [] = (clearedMem s.mem tx').pending from rfl,
        hpend] at hp
      exact hinv.memPendIssued p (List.mem_of_mem_filter hp)
  | save ok =>
    have hokt : ok = true := by simpa [okOpB] using hok
    subst hokt
    refine ⟨⟨rfl, hinv.memPendLt, ?_, hinv.issuedLt, hinv.memPendIssued, ?_,
      hinv.seqInj, rfl⟩, Nat.le_refl _, fun tx h => h, fun tx _ => rfl⟩
    · intro p hp
      simp [step, saveSt, snapNoPending] at hp
    · intro p hp
      simp [step, saveSt, snapNoPending] at hp
  | reload =>
    refine ⟨⟨rfl, ?_, ?_, ?_, hinv.diskPendIssued, hinv.diskPendIssued, hinv.seqInj, rfl⟩,
      ?_, ?_, fun tx _ => rfl⟩
    · intro p hp
      show p.2 < s.disk.counter
      rw [hinv.diskCounter]
      exact hinv.diskPendLt p hp
    · intro p hp
      show p.2 < s.disk.counter
      rw [hinv.diskCounter]
      exact hinv.diskPendLt p hp
    · intro p hp
      show p.2 < s.disk.counter
      rw [hinv.diskCounter]
      exact hinv.issuedLt p hp
    · show s.mem.counter ≤ s.disk.counter
      rw [hinv.diskCounter]
    · intro tx htx
      show tx ∈ s.disk.processed
      rw [hinv.procSync]
      exact htx
  | sync m ok =>
    have hokt : ok = true := by simpa [okOpB] using hok
    subst hokt
    show InvSt (step s (Op.sync m true)) ∧ _ ∧ _ ∧ _
    by_cases hc : s.mem.counter < m + 1
    · rw [show step s (Op.sync m true) =
          ⟨⟨m + 1, s.mem.processed, s.mem.pending⟩,
           snapNoPending ⟨m + 1, s.mem.processed, s.mem.pending⟩, s.issued⟩ from by
        simp [step, hc, saveSt, snapNoPending]]
      refine ⟨⟨rfl, ?_, ?_, ?_, hinv.memPendIssued, ?_, hinv.seqInj, rfl⟩,
        Nat.le_of_lt hc, fun tx h => h, fun tx _ => rfl⟩
      · intro p hp
        exact Nat.lt_trans (hinv.memPendLt p hp) hc
      · intro p hp
        simp [snapNoPending] at hp
      · intro p hp
        exact Nat.lt_trans (hinv.issuedLt p hp) hc
      · intro p hp
        simp [snapNoPending] at hp
    · rw [show step s (Op.sync m true) = s from by simp [step, hc]]
      exact ⟨hinv, Nat.le_refl _, fun tx h => h, fun tx _ => rfl⟩


/-- Runs compose over list append. -/
theorem run_append (s : St) (l₁ l₂ : List Op) :
    run s (l₁ ++ l₂) = run (run s l₁) l₂ := by
  induction l₁ generalizing s with
  | nil => rfl
  | cons op rest ih =>
    rw [List.cons_append]
    show run (step s op) (rest ++ l₂) = _
    exact ih (step s op)

/-- Well-formedness splits over list append. -/
theorem wf_append (s : St) (l₁ l₂ : List Op) (h : wfFromB s (l₁ ++ l₂) = true) :
    wfFromB s l₁ = true ∧ wfFromB (run s l₁) l₂ = true := by
  induction l₁ generalizing s with
  | nil => exact ⟨rfl, h⟩
  | cons op rest ih =>
    rw [List.cons_append] at h
    have h' : okOpB s op = true ∧ wfFromB (step s op) (rest ++ l₂) = true := by
      simpa [wfFromB] using h
    obtain ⟨hop, hrest⟩ := h'
    obtain ⟨h1, h2⟩ := ih (step s op) hrest
    exact ⟨by simp [wfFromB, hop, h1], h2⟩

/-- The step-preservation facts, lifted to whole runs. -/
theorem inv_run (s : St) (ops : List Op) (hinv : InvSt s) (hwf : wfFromB s ops = true) :
    InvSt (run s ops) ∧ s.mem.counter ≤ (run s ops).mem.counter ∧
    (∀ tx ∈ s.mem.processed, tx ∈ (run s ops).mem.processed) ∧
    (∀ tx ∈ s.mem.processed, issuedFor (run s ops) tx = issuedFor s tx) := by
  induction ops generalizing s with
  | nil => exact ⟨hinv, Nat.le_refl _, fun tx h => h, fun tx _ => rfl⟩
  | cons op rest ih =>
    have h' : okOpB s op = true ∧ wfFromB (step s op) rest = true := by
      simpa [wfFromB] using hwf
    obtain ⟨hop, hrest⟩ := h'
    obtain ⟨hinv₁, hc₁, hp₁, hi₁⟩ := inv_step s op hinv hop
    obtain ⟨hinv₂, hc₂, hp₂, hi₂⟩ := ih (step s op) hinv₁ hrest
    refine ⟨hinv₂, Nat.le_trans hc₁ hc₂, fun tx h => hp₂ tx (hp₁ tx h), fun tx h => ?_⟩
    show issuedFor (run (step s op) rest) tx = issuedFor s tx
    rw [hi₂ tx (hp₁ tx h), hi₁ tx h]

/-- The freshly initialized store satisfies the invariant. -/
theorem inv_init : InvSt initSt := by
  refine ⟨rfl, ?_, ?_, ?_, ?_, ?_, ?_, rfl⟩ <;> intro p hp <;> simp [initSt, snapNoPending] at hp



/-- Claim C3 counterexample: the invariant does not hold in every
reachable state.  Reserving `"a"` with a failed persistence write (the
code keeps the in-memory allocation, per claim C4), retrying the
reservation (the idempotent branch returns the unpersisted sequence 1),
then crashing and reloading from disk (the counter regresses from 2 back
to 1) and reserving `"b"` issues the same sequence 1 to the two distinct
deposits `"a"` and `"b"` — refuting both the pairwise-distinctness and the
counter-monotonicity clauses of the claim as stated. -/
theorem C3_counterexample_failed_write_collision :
    ("a", 1) ∈ (run initSt [Op.reserve "a" false, Op.reserve "a" true, Op.reload,
      Op.reserve "b" true]).issued ∧
    ("b", 1) ∈ (run initSt [Op.reserve "a" false, Op.reserve "a" true, Op.reload,
      Op.reserve "b" true]).issued ∧
    "a" ≠ "b" ∧
    (reservePendingMint (run initSt [Op.reserve "a" false]) "a" true).1 = Except.ok 1 ∧
    (run initSt [Op.reserve "a" false]).mem.counter = 2 ∧
    (run initSt [Op.reserve "a" false, Op.reserve "a" true, Op.reload]).mem.counter = 1 := by
  refine ⟨by decide, by decide, by decide, rfl, by decide, by decide⟩

/-- Claim C3 as amended: along every run of the engine's store operations
from the fresh store in which every disk write succeeds - reservations
guarded by the engine's IsProcessed check, reloads allowed anywhere - the
MintState invariant holds; sequences issued to distinct deposit ids are
pairwise distinct; every issued sequence stays below the counter; the
counter never decreases along the run; and once a deposit is processed it
stays processed and is never issued another sequence.  The restriction to
successful writes is necessary: with a failed reservation write the
counterexample run above issues one sequence to two deposits and regresses
the counter across a reload. -/
theorem C3_mint_state_invariant (ops : List Op) (hwf : wfFromB initSt ops = true) :
    InvSt (run initSt ops) ∧
    (∀ p ∈ (run initSt ops).issued, ∀ q ∈ (run initSt ops).issued,
      p.1 ≠ q.1 → p.2 ≠ q.2) ∧
    (∀ p ∈ (run initSt ops).issued, p.2 < (run initSt ops).mem.counter) ∧
    (∀ ops₁ ops₂, ops = ops₁ ++ ops₂ →
      (run initSt ops₁).mem.counter ≤ (run initSt ops).mem.counter) ∧
    (∀ ops₁ ops₂ tx, ops = ops₁ ++ ops₂ → tx ∈ (run initSt ops₁).mem.processed →
      tx ∈ (run initSt ops).mem.processed ∧
      issuedFor (run initSt ops) tx = issuedFor (run initSt ops₁) tx) := by
  obtain ⟨hinv, _, _, _⟩ := inv_run initSt ops inv_init hwf
  refine ⟨hinv, ?_, hinv.issuedLt, ?_, ?_⟩
  · intro p hp q hq hne heq
    exact hne (hinv.seqInj p hp q hq heq)
  · intro ops₁ ops₂ hsplit
    subst hsplit
    obtain ⟨hwf₁, hwf₂⟩ := wf_append initSt ops₁ ops₂ hwf
    obtain ⟨hinv₁, _, _, _⟩ := inv_run initSt ops₁ inv_init hwf₁
    obtain ⟨_, hc, _, _⟩ := inv_run (run initSt ops₁) ops₂ hinv₁ hwf₂
    rw [run_append]
    exact hc
  · intro ops₁ ops₂ tx hsplit htx
    subst hsplit
    obtain ⟨hwf₁, hwf₂⟩ := wf_append initSt ops₁ ops₂ hwf
    obtain ⟨hinv₁, _, _, _⟩ := inv_run initSt ops₁ inv_init hwf₁
    obtain ⟨_, _, hp, hi⟩ := inv_run (run initSt ops₁) ops₂ hinv₁ hwf₂
    rw [run_append]
    exact ⟨hp tx htx, hi tx htx⟩

/-- Claim C3 witness: a concrete well-formed run with two reservations, a
finalization, a save, a reload and an on-chain sync. -/
theorem C3_mint_state_invariant_witness :
    wfFromB initSt [Op.reserve "a" true, Op.finalize "a" true, Op.reserve "b" true,
      Op.save true, Op.reload, Op.sync 5 true] = true ∧
    InvSt (run initSt [Op.reserve "a" true, Op.finalize "a" true, Op.reserve "b" true,
      Op.save true, Op.reload, Op.sync 5 true]) :=
  ⟨by decide,
   (C3_mint_state_invariant [Op.reserve "a" true, Op.finalize "a" true, Op.reserve "b" true,
      Op.save true, Op.reload, Op.sync 5 true] (by decide)).1⟩

end Flowmass
